import Mathlib

/-!
Verification of the query-to-action resolution pipeline of the mcp-demo
repository (mcp-client/src/core/queryProcessor.ts, mcp-client/src/core/llmClient.ts,
packages/common/src/markdownUtils.ts).

The embedding models JavaScript values by an inductive `Json` type, JS strings
by Lean `String`/`List Char`, and JS numbers by `ℚ` (all numbers appearing in
the verified code paths are small integers, for which rational arithmetic is
exact).  External collaborators (the two LLM backends and the MCP session) are
modelled by an `Oracle` record that fixes, for one query, the outcome of every
external interaction: either a returned value or a raised error.
-/

/-- JSON-like JavaScript values, as produced by `JSON.parse` and passed around
the pipeline.  Object fields are kept in insertion order, as JS does. -/
inductive Json where
  | null : Json
  | bool : Bool → Json
  | num  : ℚ → Json
  | str  : String → Json
  | arr  : List Json → Json
  | obj  : List (String × Json) → Json

/-- JavaScript truthiness of a value (`null`, `false`, `0`, `""` are falsy;
arrays and objects are always truthy). -/
def jsTruthy : Json → Bool
  | Json.null => false
  | Json.bool b => b
  | Json.num q => decide (q ≠ 0)
  | Json.str s => decide (s ≠ "")
  | Json.arr _ => true
  | Json.obj _ => true

/-- Truthiness of a possibly-absent value (`undefined` is falsy). -/
def jsTruthyO : Option Json → Bool
  | none => false
  | some j => jsTruthy j

/-- Association-list lookup by string key (first occurrence, as in a JS object
whose keys are unique). -/
def lookupBy {α : Type} (l : List (String × α)) (k : String) : Option α :=
  (l.find? (fun p => p.1 == k)).map (fun p => p.2)

/-- Property access `v.k` on a JS value: defined for objects, `undefined`
(modelled as `none`) for everything else. -/
def getField (j : Json) (k : String) : Option Json :=
  match j with
  | Json.obj kvs => lookupBy kvs k
  | _ => none

/-- The entry list produced by `Object.entries`: an object yields its own
key-value pairs, an array its index-keyed elements, a string its index-keyed
characters, and every other value an empty list. -/
def objEntries : Json → List (String × Json)
  | Json.obj kvs => kvs
  | Json.arr l => l.enum.map (fun ic => (toString ic.1, ic.2))
  | Json.str s => s.data.enum.map (fun ic => (toString ic.1, Json.str (Char.toString ic.2)))
  | _ => []

/-- JavaScript string conversion `String(v)`.  Number formatting is
approximated by the `ℚ` printer and nested array joining is modelled one level
deep; the verified code paths only ever convert strings, where the conversion
is the identity. -/
def jsToString : Json → String
  | Json.null => "null"
  | Json.bool true => "true"
  | Json.bool false => "false"
  | Json.num q => toString q
  | Json.str s => s
  | Json.arr l => String.intercalate "," (l.map (fun e =>
      match e with
      | Json.null => ""
      | Json.bool true => "true"
      | Json.bool false => "false"
      | Json.num q => toString q
      | Json.str s => s
      | Json.arr _ => ""
      | Json.obj _ => "[object Object]"))
  | Json.obj _ => "[object Object]"

/-- The `Array.prototype.includes` test used by `required.includes(key)` for an
array of JSON values against a string key (`===` comparison, so only string
entries can match). -/
def includesStr (l : List Json) (k : String) : Bool :=
  l.any (fun j => match j with | Json.str s => s == k | _ => false)

/-- Characters matched by the JavaScript regex class `\s`. -/
def isJsWs (c : Char) : Bool :=
  ("\t\n\x0b\x0c\r \u00a0\u1680\u2000\u2001\u2002\u2003\u2004\u2005\u2006\u2007\u2008\u2009\u200a\u2028\u2029\u202f\u205f\u3000\ufeff".data).contains c

/-- Length of the maximal leading whitespace run (the greedy `\s*`). -/
def wsCount : List Char → Nat
  | [] => 0
  | c :: t => if isJsWs c then wsCount t + 1 else 0

/-- The literal triple-backtick fence. -/
def fenceChars : List Char := "```".data

/-- The literal json-tagged fence opener. -/
def fenceJsonChars : List Char := "```json".data

/-- One left-to-right pass of the global regex replace
`replace(/```json\s*|\s*```|```/g, "")` from `cleanMarkdownJson`
(markdownUtils.ts).  At each position the engine first tries the literal
"```json" followed by a greedy whitespace run, then a greedy whitespace run
followed by "```" (the bare-"```" third alternative is subsumed by the second
one with an empty run); on a match it deletes the matched span and resumes
after it, otherwise it copies one character.  The `fuel` argument is an upper
bound on the remaining length, making the recursion structural. -/
def stripGo : Nat → List Char → List Char
  | _, [] => []
  | 0, _ :: _ => []
  | fuel + 1, c :: t =>
    if fenceJsonChars.isPrefixOf (c :: t) then
      stripGo fuel ((c :: t).drop (7 + wsCount ((c :: t).drop 7)))
    else
      let k := wsCount (c :: t)
      if fenceChars.isPrefixOf ((c :: t).drop k) then
        stripGo fuel ((c :: t).drop (k + 3))
      else
        c :: stripGo fuel t

/-- The full fence-removing pass over a character list. -/
def stripScan (t : List Char) : List Char := stripGo t.length t

/-- Leading-whitespace trim (the front half of `String.prototype.trim`). -/
def trimLeftChars (t : List Char) : List Char := t.dropWhile isJsWs

/-- Trailing-whitespace trim (the back half of `String.prototype.trim`). -/
def trimRightChars : List Char → List Char
  | [] => []
  | c :: t =>
    match trimRightChars t with
    | [] => if isJsWs c then [] else [c]
    | w => c :: w

/-- The JavaScript `String.prototype.trim`. -/
def jsTrimChars (t : List Char) : List Char := trimRightChars (trimLeftChars t)

/-- String-level `trim()`. -/
def jsTrimString (s : String) : String := ⟨jsTrimChars s.data⟩

/-- Model of `cleanMarkdownJson` (markdownUtils.ts): the global fence-removing
regex replace followed by `trim()`. -/
def cleanMarkdownJson (s : String) : String := ⟨jsTrimChars (stripScan s.data)⟩

/-- Substring test: `hasSub p t` holds when `p` occurs contiguously in `t`. -/
def hasSub (p : List Char) : List Char → Bool
  | [] => p.isPrefixOf []
  | c :: t => p.isPrefixOf (c :: t) || hasSub p t

/-- Model of the JavaScript `String.prototype.replace` with a *string*
pattern: only the first occurrence of `p` in `t` is replaced by `r` (an empty
pattern matches at the start, as in JS). -/
def replF : List Char → List Char → List Char → List Char
  | [], p, r => if p.isPrefixOf ([] : List Char) then r else []
  | c :: t, p, r =>
    if p.isPrefixOf (c :: t) then r ++ (c :: t).drop p.length
    else c :: replF t p r

/-- String-level first-occurrence replacement. -/
def replaceFirst (s pat rep : String) : String := ⟨replF s.data pat.data rep.data⟩

/-- Runtime field validators produced by `jsonSchemaToZod`
(queryProcessor.ts lines 28-59): `z.any()`, `z.string()` with an optional
minimum length, or `z.number()`. -/
inductive ZField where
  | zAny : ZField
  | zString : Option ℚ → ZField
  | zNumber : ZField

/-- Top-level validator: either `z.any()` or a `z.object(shape)` whose shape
entries carry the key, the field validator, and whether the key was listed in
the schema's `required` array; the flag records `.strict()`. -/
inductive ZodT where
  | zAnyT : ZodT
  | zObject : List (String × ZField × Bool) → Bool → ZodT

/-- The effective minimum length stored by
`if (propSchema.minLength && ...) zodField = zodField.min(propSchema.minLength)`:
a `minLength` of `0` is falsy in JS, so no minimum is installed. -/
def effMinLen (ml : Option ℚ) : Option ℚ :=
  ml.bind (fun q => if q = 0 then none else some q)

/-- Field validator chosen by the `switch (propSchema.type)` in
`jsonSchemaToZod`: `"string"` (with the truthiness-guarded `minLength`),
`"number"`, or the `z.any()` default for every other declared type.  A truthy
non-numeric `minLength` value is outside the modelled fragment and reported as
a failure. -/
def fieldOfProp (propSchema : Json) : Except Unit ZField :=
  match getField propSchema "type" with
  | some (Json.str "string") =>
    (match getField propSchema "minLength" with
     | none => Except.ok (ZField.zString none)
     | some (Json.num q) => Except.ok (ZField.zString (effMinLen (some q)))
     | some v => if jsTruthy v then Except.error () else Except.ok (ZField.zString none))
  | some (Json.str "number") => Except.ok ZField.zNumber
  | _ => Except.ok ZField.zAny

/-- The membership test `jsonSchema.required?.includes(key)`: absent or `null`
is falsy via `?.`, an array uses `Array.prototype.includes` (`===`), a string
uses substring `includes`, and any other value has no `includes` method, so
the call raises a `TypeError`. -/
def requiredIncludes (reqJ : Option Json) (key : String) : Except Unit Bool :=
  match reqJ with
  | none => Except.ok false
  | some Json.null => Except.ok false
  | some (Json.arr l) => Except.ok (includesStr l key)
  | some (Json.str s) => Except.ok (hasSub key.data s.data)
  | some _ => Except.error ()

/-- Model of `jsonSchemaToZod` (queryProcessor.ts lines 28-59).  Only an
object value with `type === "object"` and a truthy `properties` member yields
an object validator; everything else falls through to `z.any()`.  The strict
flag is set exactly when `additionalProperties === false`. -/
def jsonSchemaToZod (j : Json) : Except Unit ZodT :=
  match j with
  | Json.obj fields =>
    if (match lookupBy fields "type" with
        | some (Json.str "object") => true
        | _ => false)
       && jsTruthyO (lookupBy fields "properties") then
      do
        let props := objEntries ((lookupBy fields "properties").getD Json.null)
        let reqJ := lookupBy fields "required"
        let shape ← props.mapM (fun kv => do
          let fld ← fieldOfProp kv.2
          let req ← requiredIncludes reqJ kv.1
          pure (kv.1, fld, req))
        pure (ZodT.zObject shape
          (match lookupBy fields "additionalProperties" with
           | some (Json.bool false) => true
           | _ => false))
    else Except.ok ZodT.zAnyT
  | _ => Except.ok ZodT.zAnyT

/-- Zod acceptance of a present field value. -/
def zFieldAccepts : ZField → Json → Bool
  | ZField.zAny, _ => true
  | ZField.zString ml, Json.str s =>
    (match ml with
     | none => true
     | some q => decide (q ≤ (s.length : ℚ)))
  | ZField.zString _, _ => false
  | ZField.zNumber, Json.num _ => true
  | ZField.zNumber, _ => false

/-- Zod acceptance of a missing field (`undefined`): `z.any()` accepts
`undefined` even when the key was required, while `z.string()`/`z.number()`
reject it. -/
def zFieldAcceptsMissing : ZField → Bool
  | ZField.zAny => true
  | _ => false

/-- Whether `zodSchema.parse(v)` succeeds.  An object validator requires an
object value, validates each shape entry (a missing non-required key passes, a
missing required key is validated against `undefined`), and in strict mode
rejects any key outside the shape. -/
def zodAccepts (z : ZodT) (v : Json) : Bool :=
  match z with
  | ZodT.zAnyT => true
  | ZodT.zObject shape strict =>
    match v with
    | Json.obj kvs =>
      shape.all (fun ent =>
        match lookupBy kvs ent.1 with
        | some val => zFieldAccepts ent.2.1 val
        | none => if ent.2.2 then zFieldAcceptsMissing ent.2.1 else true)
      && (!strict || kvs.all (fun kv => shape.any (fun ent => ent.1 == kv.1)))
    | _ => false

/-- The schema-coercion step of the pipeline: build the validator with
`jsonSchemaToZod` and test the argument value with `parse`. -/
def validateArgs (schema args : Json) : Except Unit Bool := do
  let z ← jsonSchemaToZod schema
  pure (zodAccepts z args)

/-- Error classification of the top-level `catch` in `processQuery`
(queryProcessor.ts lines 257-268): a JSON `SyntaxError`, a `ZodError`, or any
other raised error. -/
inductive ErrKind where
  | jsonSyntax : ErrKind
  | zodIssue : ErrKind
  | other : ErrKind

/-- An error raised somewhere inside the pipeline or by an external
collaborator. -/
structure PipeErr where
  kind : ErrKind
  msg : String

/-- The user-visible string produced by the `catch` block for each error
class. -/
def classifyError (e : PipeErr) : String :=
  match e.kind with
  | ErrKind.jsonSyntax => "Failed to process query: LLM response is not valid JSON."
  | ErrKind.zodIssue => "Failed to process query: Invalid arguments - " ++ e.msg
  | ErrKind.other => "Failed to process query: " ++ e.msg

/-- A tool entry of a server's capability snapshot. -/
structure ToolDef where
  name : String
  description : String
  inputSchema : Json

/-- A declared argument of a prompt template. -/
structure PromptArgDef where
  name : String
  description : String
  required : Bool

/-- A prompt entry of a server's capability snapshot. -/
structure PromptDef where
  name : String
  description : String
  args : List PromptArgDef

/-- A stored prompt body: description and `(role, text)` messages (the code's
`msg.content.text`). -/
structure PromptTemplate where
  description : String
  messages : List (String × String)

/-- Per-server capability snapshot (`ServerInfo` in queryProcessor.ts). -/
structure ServerInfo where
  tools : List ToolDef
  resources : List String
  prompts : List PromptDef
  promptTemplates : List (String × PromptTemplate)
  latency : ℚ
  load : ℚ

/-- Registry state: the `serverInfo` map and the set of server names that hold
a live session. -/
structure PState where
  servers : List (String × ServerInfo)
  sessions : List String

/-- External interactions observable during one query: an LLM completion call
or a session RPC. -/
inductive Ev where
  | llm : Ev
  | session : Ev
deriving DecidableEq

/-- One query's worth of external behavior: the outcome of each collaborator
interaction the pipeline may attempt, either a value or a raised error.  For
the JSON-expecting steps the oracle directly provides the outcome of
`JSON.parse` on the cleaned answer (`none` = the parse threw). -/
structure Oracle where
  serverAnswer : Except PipeErr String
  promptAnswer : Except PipeErr String
  promptArgsOutcome : Except PipeErr (Option Json)
  toolSelectOutcome : Except PipeErr Json
  toolArgsOutcome : Except PipeErr (Option Json)
  callToolOutcome : Except PipeErr Json

/-- The placeholder literal `{{argName}}` built by `selectPromptAndFill`. -/
def placeholderOf (n : String) : String := "\x7b\x7b" ++ n ++ "\x7d\x7d"

/-- The replacement text for one argument value: the literal `"N/A"` for an
empty string (`argValue === ""`), otherwise `String(argValue)`. -/
def argValueText : Json → String
  | Json.str "" => "N/A"
  | v => jsToString v

/-- One iteration of the placeholder-substitution loop: replace the first
occurrence of `{{argName}}` by the argument's text. -/
def applyArgOnce (content : String) (kv : String × Json) : String :=
  replaceFirst content (placeholderOf kv.1) (argValueText kv.2)

/-- Substitute every extracted argument into one message body, in entry
order. -/
def fillContent (content : String) (args : List (String × Json)) : String :=
  args.foldl applyArgOnce content

/-- Fill all messages of a prompt template. -/
def fillMessages (msgs : List (String × String)) (args : List (String × Json)) :
    List (String × String) :=
  msgs.map (fun m => (m.1, fillContent m.2 args))

/-- Model of `LLMClient.selectServer` (llmClient.ts lines 31-84): the raw LLM
answer is trimmed (an empty completion defaults to `"None"`); the literal
`"None"`, an unknown name, or an error raised by the call (caught internally)
all yield `null`. -/
def selectServerModel (answer : Except PipeErr String)
    (servers : List (String × ServerInfo)) : Option String :=
  match answer with
  | Except.error _ => none
  | Except.ok a =>
    let nm := jsTrimString a
    let nm := if nm = "" then "None" else nm
    if nm = "None" then none
    else if (lookupBy servers nm).isSome then some nm else none

/-- A resolved prompt: name, filled messages, and the raw argument map. -/
structure ResolvedPrompt where
  promptName : String
  messages : List (String × String)
  args : List (String × Json)

/-- Model of `LLMClient.extractPromptArguments` (llmClient.ts lines 137-181):
the parsed JSON on success, or — when `JSON.parse` throws on the cleaned
answer — a map of every declared argument name to the empty string.  An error
raised by the completion call itself propagates (there is no catch around
it). -/
def extractPromptArgumentsModel (promptArgs : List PromptArgDef)
    (outcome : Except PipeErr (Option Json)) : Except PipeErr Json :=
  match outcome with
  | Except.error e => Except.error e
  | Except.ok (some j) => Except.ok j
  | Except.ok none =>
    Except.ok (Json.obj (promptArgs.map (fun a => (a.name, Json.str ""))))

/-- The `properties` entry list used by `extractToolArguments`
(`inputSchema.properties || {}` on `tool.inputSchema || {}`). -/
def toolProps (tool : ToolDef) : List (String × Json) :=
  let inputSchema := if jsTruthy tool.inputSchema then tool.inputSchema else Json.obj []
  objEntries (match getField inputSchema "properties" with
    | some p => if jsTruthy p then p else Json.obj []
    | none => Json.obj [])

/-- The iteration keys of `for (const req of required)` over
`inputSchema.required || []`, each converted to a property key as `req in
args` does: an array yields its elements, a string its characters, and any
other (truthy) value is not iterable, so the loop raises (`none`). -/
def toolRequiredKeys (tool : ToolDef) : Option (List String) :=
  let inputSchema := if jsTruthy tool.inputSchema then tool.inputSchema else Json.obj []
  match (match getField inputSchema "required" with
         | some r => if jsTruthy r then r else Json.arr []
         | none => Json.arr []) with
  | Json.arr l => some (l.map jsToString)
  | Json.str s => some (s.data.map Char.toString)
  | _ => none

/-- The string-keyed members of `Object.prototype`: the `in` operator
consults the prototype chain, so these names test as present on every
ordinary object even when they are not own keys, and their inherited values
(functions, or `Object.prototype` itself for `__proto__`) are never `===`
the empty string. -/
def objectProtoKeys : List String :=
  ["constructor", "hasOwnProperty", "isPrototypeOf", "propertyIsEnumerable",
   "toLocaleString", "toString", "valueOf", "__proto__", "__defineGetter__",
   "__defineSetter__", "__lookupGetter__", "__lookupSetter__"]

/-- The string-keyed members of `Array.prototype` (ES2023 baseline), which
arrays additionally inherit; like the object-prototype members they test as
present under `in` and their inherited values are never the empty string. -/
def arrayProtoKeys : List String :=
  ["at", "concat", "copyWithin", "entries", "every", "fill", "filter",
   "find", "findIndex", "findLast", "findLastIndex", "flat", "flatMap",
   "forEach", "includes", "indexOf", "join", "keys", "lastIndexOf", "map",
   "pop", "push", "reduce", "reduceRight", "reverse", "shift", "slice",
   "some", "sort", "splice", "toReversed", "toSorted", "toSpliced",
   "unshift", "values", "with"]

/-- The test `!(req in args) || args[req] === ""` for an object value:
an own key is looked up and its value compared against `""`; a missing own
key still counts as present (with a non-string inherited value) when it
names an `Object.prototype` member. -/
def reqMissingOrEmpty (kvs : List (String × Json)) (key : String) : Bool :=
  match lookupBy kvs key with
  | none => !(objectProtoKeys.contains key)
  | some (Json.str "") => true
  | some _ => false

/-- The same test when the parsed value is an array: `req in arr` holds for
canonical indices below the length, for the own property `"length"`, and for
the inherited `Array.prototype`/`Object.prototype` member names; only an
indexed element can be `===` the empty string. -/
def reqMissingOrEmptyArr (l : List Json) (key : String) : Bool :=
  if key = "length" then false
  else
    match (List.range l.length).find? (fun i => toString i == key) with
    | some i =>
      (match l.get? i with
       | some (Json.str "") => true
       | some _ => false
       | none => true)
    | none => !((arrayProtoKeys ++ objectProtoKeys).contains key)

/-- Model of `LLMClient.extractToolArguments` (llmClient.ts lines 183-244).
With no declared properties it returns `{}` without calling the model.
Otherwise one completion call is made; if `JSON.parse` throws on the cleaned
answer, the catch block returns a map of every property name to `""`.  On a
successful parse, the required-field loop returns `{}` as soon as some
required key is absent or maps to `""`; the `in` operator on a non-object
parse result raises a `TypeError`, which the same catch turns into the
all-empty-string map (unless the loop body never runs). -/
def extractToolArgumentsModel (tool : ToolDef)
    (outcome : Except PipeErr (Option Json)) : List Ev × Except PipeErr Json :=
  let properties := toolProps tool
  if properties.isEmpty then ([], Except.ok (Json.obj []))
  else
    let fallback := Json.obj (properties.map (fun p => (p.1, Json.str "")))
    match outcome with
    | Except.error e => ([Ev.llm], Except.error e)
    | Except.ok none => ([Ev.llm], Except.ok fallback)
    | Except.ok (some j) =>
      match toolRequiredKeys tool with
      | none => ([Ev.llm], Except.ok fallback)
      | some reqs =>
        match j with
        | Json.obj kvs =>
          if reqs.any (fun r => reqMissingOrEmpty kvs r) then
            ([Ev.llm], Except.ok (Json.obj []))
          else ([Ev.llm], Except.ok j)
        | Json.arr l =>
          if reqs.any (fun r => reqMissingOrEmptyArr l r) then
            ([Ev.llm], Except.ok (Json.obj []))
          else ([Ev.llm], Except.ok j)
        | _ =>
          if reqs.isEmpty then ([Ev.llm], Except.ok j)
          else ([Ev.llm], Except.ok fallback)

/-- Model of `QueryProcessor.selectPromptAndFill` (queryProcessor.ts lines
70-139), returning the external interactions performed alongside the result.
Missing server info, no prompts (short-circuit before any model call), the
answer `"None"`, an unknown prompt name, a missing template body, or a falsy
extracted-argument value all yield `null`; an error raised by an LLM call
propagates. -/
def selectPromptAndFillModel (o : Oracle) (st : PState) (serverName : String) :
    List Ev × Except PipeErr (Option ResolvedPrompt) :=
  match lookupBy st.servers serverName with
  | none => ([], Except.ok none)
  | some info =>
    if info.prompts.isEmpty then ([], Except.ok none)
    else
      match o.promptAnswer with
      | Except.error e => ([Ev.llm], Except.error e)
      | Except.ok a =>
        let nm := jsTrimString a
        let nm := if nm = "" then "None" else nm
        if nm = "None" then ([Ev.llm], Except.ok none)
        else
          match info.prompts.find? (fun p => p.name == nm) with
          | none => ([Ev.llm], Except.ok none)
          | some selected =>
            match lookupBy info.promptTemplates selected.name with
            | none => ([Ev.llm], Except.ok none)
            | some tmpl =>
              if selected.args.isEmpty then
                ([Ev.llm], Except.ok (some ⟨selected.name, fillMessages tmpl.messages [], []⟩))
              else
                match extractPromptArgumentsModel selected.args o.promptArgsOutcome with
                | Except.error e => ([Ev.llm, Ev.llm], Except.error e)
                | Except.ok argsJson =>
                  if jsTruthy argsJson then
                    ([Ev.llm, Ev.llm], Except.ok (some
                      ⟨selected.name, fillMessages tmpl.messages (objEntries argsJson),
                       objEntries argsJson⟩))
                  else ([Ev.llm, Ev.llm], Except.ok none)

/-- Indentation used by `JSON.stringify(v, null, 2)`. -/
def indentStr (n : Nat) : String := String.mk (List.replicate n ' ')

/-- JSON string quoting for `JSON.stringify` (the common escapes; other
control characters do not occur in the verified inputs). -/
def jsonQuote (s : String) : String :=
  "\"" ++ String.mk (s.data.foldr (fun c acc =>
    if c = '"' then '\\' :: '"' :: acc
    else if c = '\\' then '\\' :: '\\' :: acc
    else if c = '\n' then '\\' :: 'n' :: acc
    else if c = '\r' then '\\' :: 'r' :: acc
    else if c = '\t' then '\\' :: 't' :: acc
    else c :: acc) []) ++ "\""

mutual

/-- Model of `JSON.stringify(v, null, 2)` at a given indentation level. -/
def stringifyVal : Nat → Json → String
  | _, Json.null => "null"
  | _, Json.bool true => "true"
  | _, Json.bool false => "false"
  | _, Json.num q => toString q
  | _, Json.str s => jsonQuote s
  | _, Json.arr [] => "[]"
  | ind, Json.arr (x :: xs) =>
    "[\n" ++ String.intercalate ",\n" (stringifyItems (ind + 2) (x :: xs)) ++
      "\n" ++ indentStr ind ++ "]"
  | _, Json.obj [] => "\x7b\x7d"
  | ind, Json.obj (kv :: kvs) =>
    "\x7b\n" ++ String.intercalate ",\n" (stringifyMembers (ind + 2) (kv :: kvs)) ++
      "\n" ++ indentStr ind ++ "\x7d"

/-- Array items of the pretty printer. -/
def stringifyItems : Nat → List Json → List String
  | _, [] => []
  | ind, x :: xs => (indentStr ind ++ stringifyVal ind x) :: stringifyItems ind xs

/-- Object members of the pretty printer. -/
def stringifyMembers : Nat → List (String × Json) → List String
  | _, [] => []
  | ind, kv :: kvs =>
    (indentStr ind ++ jsonQuote kv.1 ++ ": " ++ stringifyVal ind kv.2) ::
      stringifyMembers ind kvs

end

/-- Top-level `JSON.stringify(data, null, 2)`. -/
def stringifyPretty (j : Json) : String := stringifyVal 0 j

/-- The strict comparison `item.type === tag` against a string literal. -/
def isTypeTag (tyJ : Option Json) (tag : String) : Bool :=
  match tyJ with
  | some (Json.str s) => s == tag
  | _ => false

/-- The text `${item.type}` interpolates to (`"undefined"` when absent). -/
def typeText (tyJ : Option Json) : String :=
  match tyJ with
  | some t => jsToString t
  | none => "undefined"

/-- Result normalization of `processQuery` (queryProcessor.ts lines 241-253):
only the first content item is inspected; a `"json"` item with truthy `data`
is pretty-printed, a `"text"` item with truthy `text` yields that text, any
other first item yields the unsupported-content message, and a missing,
non-array or empty content list yields the no-content message. -/
def normalizeToolResult (raw : Json) : String :=
  match getField raw "content" with
  | some (Json.arr (first :: _)) =>
    let tyJ := getField first "type"
    let dataJ := getField first "data"
    let textJ := getField first "text"
    if isTypeTag tyJ "json" && jsTruthyO dataJ then
      stringifyPretty (dataJ.getD Json.null)
    else if isTypeTag tyJ "text" && jsTruthyO textJ then
      jsToString (textJ.getD Json.null)
    else
      "Unsupported content type: " ++ typeText tyJ
  | _ => "No content returned from tool."

/-- The load update applied after a successful invocation:
`Math.min(load + 1.0, 100.0)`. -/
def loadStep (l : ℚ) : ℚ := min (l + 1) 100

/-- Apply the load update to the selected server's registry entry. -/
def updateLoad (servers : List (String × ServerInfo)) (name : String) :
    List (String × ServerInfo) :=
  servers.map (fun p =>
    if p.1 == name then
      (p.1, ServerInfo.mk p.2.tools p.2.resources p.2.prompts p.2.promptTemplates
        p.2.latency (loadStep p.2.load))
    else p)

/-- The guard `!validatedArguments || Object.keys(validatedArguments).length === 0`
that raises "Invalid or missing arguments". -/
def argsMissing (args : Json) : Bool :=
  !(jsTruthy args) || ((objEntries args).length == 0)

/-- The body of `QueryProcessor.processQuery` (queryProcessor.ts lines
143-256), i.e. everything inside the `try`: the returned list records the
external interactions attempted (in order), and the `Except` is an `error`
exactly when some step raises.  Early `return` statements are `ok` results;
`throw` statements and collaborator failures are `error`s. -/
def processQueryE (o : Oracle) (st : PState) (query : String) :
    List Ev × Except PipeErr (String × PState) :=
  match selectServerModel o.serverAnswer st.servers with
  | none => ([Ev.llm], Except.ok ("No suitable MCP server found to handle this query.", st))
  | some selectedServer =>
    if !(st.sessions.contains selectedServer) then
      ([Ev.llm], Except.ok ("Session for server " ++ selectedServer ++ " not found.", st))
    else
      match lookupBy st.servers selectedServer with
      | none =>
        ([Ev.llm], Except.ok ("Server info for " ++ selectedServer ++ " not found.", st))
      | some serverInfo =>
        let _correctedQuery := replaceFirst query "excute" "execute"
        match selectPromptAndFillModel o st selectedServer with
        | (evsP, Except.error e) => (Ev.llm :: evsP, Except.error e)
        | (evsP, Except.ok _promptInfo) =>
          match o.toolSelectOutcome with
          | Except.error e => (Ev.llm :: evsP ++ [Ev.llm], Except.error e)
          | Except.ok toolCallJson =>
            let toolNameJ := getField toolCallJson "tool_name"
            let toolArguments0 : Json :=
              match getField toolCallJson "arguments" with
              | some a => if jsTruthy a then a else Json.obj []
              | none => Json.obj []
            if !(jsTruthyO toolNameJ) then
              (Ev.llm :: evsP ++ [Ev.llm],
               Except.ok ("LLM could not determine which tool to use.", st))
            else
              let foundTool := serverInfo.tools.find? (fun t =>
                match toolNameJ with
                | some (Json.str s) => t.name == s
                | _ => false)
              match (if (objEntries toolArguments0).length == 0 then
                       match foundTool with
                       | some tool => extractToolArgumentsModel tool o.toolArgsOutcome
                       | none => ([], Except.ok toolArguments0)
                     else ([], Except.ok toolArguments0)) with
              | (evsX, Except.error e) =>
                (Ev.llm :: evsP ++ Ev.llm :: evsX, Except.error e)
              | (evsX, Except.ok validatedArguments) =>
                let evs0 := Ev.llm :: evsP ++ Ev.llm :: evsX
                let toolNameText := typeText toolNameJ
                if argsMissing validatedArguments then
                  (evs0, Except.error
                    ⟨ErrKind.other, "Invalid or missing arguments for tool: " ++ toolNameText⟩)
                else
                  match foundTool with
                  | none =>
                    (evs0, Except.error
                      ⟨ErrKind.other, "Schema for tool " ++ toolNameText ++ " not found."⟩)
                  | some tool =>
                    if !(jsTruthy tool.inputSchema) then
                      (evs0, Except.error
                        ⟨ErrKind.other, "Schema for tool " ++ toolNameText ++ " not found."⟩)
                    else
                      match jsonSchemaToZod tool.inputSchema with
                      | Except.error _ =>
                        (evs0, Except.error
                          ⟨ErrKind.other, "required.includes is not a function"⟩)
                      | Except.ok zodSchema =>
                        if !(zodAccepts zodSchema validatedArguments) then
                          (evs0, Except.error ⟨ErrKind.zodIssue, "schema validation failed"⟩)
                        else
                          match o.callToolOutcome with
                          | Except.error e => (evs0 ++ [Ev.session], Except.error e)
                          | Except.ok rawResult =>
                            (evs0 ++ [Ev.session],
                             Except.ok
                               ("Result from " ++ selectedServer ++ ":\n" ++
                                  normalizeToolResult rawResult,
                                PState.mk (updateLoad st.servers selectedServer) st.sessions))

/-- `QueryProcessor.processQuery` with its top-level `try`/`catch`: the body's
result string, or the classified error message with the registry state left
untouched. -/
def processQuery (o : Oracle) (st : PState) (query : String) :
    String × PState × List Ev :=
  match processQueryE o st query with
  | (evs, Except.ok r) => (r.1, r.2, evs)
  | (evs, Except.error e) => (classifyError e, st, evs)

/-- Claim C1: for every input query and every behavior of the external
collaborators (LLM answers, session results, raised errors at any step),
`processQuery` returns a string and never propagates an exception: every
run either completes the body successfully or ends in a classified
user-visible error message, with the registry state left untouched in the
error case. -/
theorem processQuery_total_catches (o : Oracle) (st : PState) (query : String) :
    (∃ s st2 evs, processQueryE o st query = (evs, Except.ok (s, st2)) ∧
       processQuery o st query = (s, st2, evs)) ∨
    (∃ e evs, processQueryE o st query = (evs, Except.error e) ∧
       processQuery o st query = (classifyError e, st, evs)) := by
  rcases h : processQueryE o st query with ⟨evs, res⟩
  cases res with
  | ok r =>
    exact Or.inl ⟨r.1, r.2, evs, by simp [h], by simp [processQuery, h]⟩
  | error e =>
    exact Or.inr ⟨e, evs, rfl, by simp [processQuery, h]⟩

/-- A concrete oracle used for counterexample runs. -/
def oracleBase : Oracle :=
  ⟨Except.ok "db", Except.ok "None", Except.ok none, Except.ok Json.null,
   Except.ok none, Except.ok Json.null⟩

/-- Claim C3 counterexample: with an empty registry `processQuery` does return
exactly the advertised string, but the trace contains an LLM completion event
— `selectServer` formats the (empty) catalog and calls the model before
discovering that its answer cannot name a registered server — so the "no
external call attempted" half of the claim is false. -/
theorem empty_registry_llm_call_made :
    processQuery oracleBase (PState.mk [] []) "any query" =
      ("No suitable MCP server found to handle this query.", PState.mk [] [], [Ev.llm]) ∧
    ([Ev.llm] : List Ev) ≠ [] := ⟨rfl, by decide⟩

/-- With an empty registry, server selection always yields `null`: either the
model call failed (caught internally) or its trimmed answer is not a key of
the empty map. -/
lemma selectServerModel_empty (answer : Except PipeErr String) :
    selectServerModel answer ([] : List (String × ServerInfo)) = none := by
  cases answer with
  | error e => rfl
  | ok a => simp [selectServerModel, lookupBy]

/-- Claim C3 (amended): when the server registry is empty, `processQuery`
returns exactly "No suitable MCP server found to handle this query." with the
state unchanged, and the only external interaction attempted is the single
server-selection LLM completion — no session operation occurs. -/
theorem processQuery_empty_registry (o : Oracle) (sess : List String) (q : String) :
    processQuery o (PState.mk [] sess) q =
      ("No suitable MCP server found to handle this query.", PState.mk [] sess, [Ev.llm]) := by
  simp [processQuery, processQueryE, selectServerModel_empty]

/-- Claim C4 (amended): whenever `extractToolArguments` successfully parses
the model's answer as a JSON object and some name in the tool's
required-field list is missing or empty in the JavaScript sense — the `in`
operator consults the prototype chain, so a required name counts as absent
only when it is neither an own key of the parsed object nor an
`Object.prototype` member, and counts as empty only when its own value is
the empty string — it returns the empty map and does not throw (the result
is an `ok` value, never an `error`). -/
theorem extractToolArguments_required_missing (tool : ToolDef)
    (kvs : List (String × Json)) (r : String)
    (hr : r ∈ ((toolRequiredKeys tool).getD []))
    (hmiss : reqMissingOrEmpty kvs r = true) :
    (extractToolArgumentsModel tool (Except.ok (some (Json.obj kvs)))).2 =
      Except.ok (Json.obj []) := by
  unfold extractToolArgumentsModel
  cases hp : (toolProps tool).isEmpty with
  | true => simp [hp]
  | false =>
    cases hk : toolRequiredKeys tool with
    | none => rw [hk] at hr; cases hr
    | some reqs =>
      rw [hk] at hr
      simp only [Option.getD] at hr
      have hany : reqs.any (fun x => reqMissingOrEmpty kvs x) = true :=
        List.any_eq_true.mpr ⟨r, hr, hmiss⟩
      simp [hp, hk, hany]

/-- A concrete tool with two required string parameters, used by witnesses. -/
def toolW : ToolDef :=
  ⟨"get_table_schema", "Get the schema of a table",
   Json.obj
     [("type", Json.str "object"),
      ("properties", Json.obj
        [("database", Json.obj [("type", Json.str "string")]),
         ("table", Json.obj [("type", Json.str "string")])]),
      ("required", Json.arr [Json.str "database", Json.str "table"])]⟩

/-- Witness for claim C4: for the concrete tool `toolW`, a parsed object that
supplies `database` but omits `table` makes the extractor return the empty
map without throwing. -/
theorem extractToolArguments_required_missing_witness :
    (extractToolArgumentsModel toolW
       (Except.ok (some (Json.obj [("database", Json.str "mysql")])))).2 =
      Except.ok (Json.obj []) :=
  extractToolArguments_required_missing toolW [("database", Json.str "mysql")]
    "table" (by decide) (by decide)

/-- A tool whose single required name is an `Object.prototype` member. -/
def toolProtoReq : ToolDef :=
  ⟨"t", "A tool requiring an inherited-looking name",
   Json.obj
     [("type", Json.str "object"),
      ("properties", Json.obj [("a", Json.obj [("type", Json.str "number")])]),
      ("required", Json.arr [Json.str "toString"])]⟩

/-- Claim C4 counterexample: with required list `["toString"]` and the parsed
object `{"a": 1}`, the name `toString` is absent from the object (it is no
own key), yet the code returns the parsed arguments, not the empty map:
`"toString" in args` is true in JavaScript because `in` consults the
prototype chain, and the inherited method is not `=== ""`.  So the claim as
stated — empty map whenever a required name is absent from the object — is
false. -/
theorem required_proto_member_not_missing :
    "toString" ∈ (toolRequiredKeys toolProtoReq).getD [] ∧
    lookupBy [("a", Json.num 1)] "toString" = none ∧
    (extractToolArgumentsModel toolProtoReq
       (Except.ok (some (Json.obj [("a", Json.num 1)])))).2 =
      Except.ok (Json.obj [("a", Json.num 1)]) ∧
    Json.obj [("a", Json.num 1)] ≠ Json.obj [] :=
  ⟨by decide, rfl, rfl, by simp⟩

/-- Claim C10: for a tool with at least one declared property, a JSON-parse
failure of the model's cleaned answer makes `extractToolArguments` return one
entry per declared property, each mapped to `""` — not the empty map — and
this outcome does not trip the "Invalid or missing arguments" emptiness guard
of `processQuery` (the required-field check is skipped on this catch path:
the result is the full map regardless of the required list). -/
theorem extractToolArguments_parse_failure (tool : ToolDef)
    (h : toolProps tool ≠ []) :
    extractToolArgumentsModel tool (Except.ok none) =
      ([Ev.llm],
       Except.ok (Json.obj ((toolProps tool).map (fun p => (p.1, Json.str ""))))) ∧
    argsMissing (Json.obj ((toolProps tool).map (fun p => (p.1, Json.str "")))) = false := by
  have hp : (toolProps tool).isEmpty = false := by
    cases hpp : toolProps tool with
    | nil => exact absurd hpp h
    | cons a l => rfl
  constructor
  · unfold extractToolArgumentsModel
    simp [hp]
  · have hl : (toolProps tool).length ≠ 0 := by
      cases hpp : toolProps tool with
      | nil => exact absurd hpp h
      | cons a l => simp
    simp [argsMissing, jsTruthy, objEntries, hl]

/-- Witness for claim C10: the concrete tool `toolW` yields the two-entry
all-empty-string map on a parse failure, and that map passes the emptiness
guard. -/
theorem extractToolArguments_parse_failure_witness :
    extractToolArgumentsModel toolW (Except.ok none) =
      ([Ev.llm],
       Except.ok (Json.obj [("database", Json.str ""), ("table", Json.str "")])) ∧
    argsMissing (Json.obj [("database", Json.str ""), ("table", Json.str "")]) = false :=
  extractToolArguments_parse_failure toolW
    (fun h => absurd (congrArg List.length h) (by decide))

/-- A tool result whose first content item has type "text" but an empty text
payload. -/
def rawTextEmpty : Json :=
  Json.obj [("content",
    Json.arr [Json.obj [("type", Json.str "text"), ("text", Json.str "")]])]

/-- Claim C5 counterexample: a first content item of type "text" whose text is
the empty string does not yield its literal text (the empty string) as the
claim requires — the truthiness test `firstItem.text` fails and the code
falls through to the unsupported-content message. -/
theorem normalize_empty_text_unsupported :
    normalizeToolResult rawTextEmpty = "Unsupported content type: text" ∧
    "Unsupported content type: text" ≠ "" := ⟨rfl, by decide⟩

/-- Unfolding of `normalizeToolResult` on a result whose content list starts
with a first item: definitional reduction of the outer content lookup. -/
lemma normalizeToolResult_cons (item : Json) (rest : List Json) :
    normalizeToolResult (Json.obj [("content", Json.arr (item :: rest))]) =
      (if isTypeTag (getField item "type") "json" && jsTruthyO (getField item "data") then
        stringifyPretty ((getField item "data").getD Json.null)
      else if isTypeTag (getField item "type") "text" && jsTruthyO (getField item "text") then
        jsToString ((getField item "text").getD Json.null)
      else "Unsupported content type: " ++ typeText (getField item "type")) := rfl

/-- Claim C5 (amended): result normalization inspects only the first content
item; a "json" item with truthy `data` yields that data pretty-printed, a
"text" item with a non-empty string `text` yields that literal text, and
every other first item yields the "Unsupported content type: <kind>"
message — in full generality (any first item passing neither truthiness
test), and in particular for a "json" item whose `data` is absent or falsy
and for a "text" item whose `text` is absent or falsy; an empty or absent
content list yields the no-content message. -/
theorem normalize_result_cases :
    (∀ (item d : Json) (rest : List Json),
        getField item "type" = some (Json.str "json") →
        getField item "data" = some d → jsTruthy d = true →
        normalizeToolResult (Json.obj [("content", Json.arr (item :: rest))]) =
          stringifyPretty d) ∧
    (∀ (item : Json) (s : String) (rest : List Json),
        getField item "type" = some (Json.str "text") →
        getField item "text" = some (Json.str s) → s ≠ "" →
        normalizeToolResult (Json.obj [("content", Json.arr (item :: rest))]) = s) ∧
    (∀ (item : Json) (rest : List Json),
        (isTypeTag (getField item "type") "json" && jsTruthyO (getField item "data")) = false →
        (isTypeTag (getField item "type") "text" && jsTruthyO (getField item "text")) = false →
        normalizeToolResult (Json.obj [("content", Json.arr (item :: rest))]) =
          "Unsupported content type: " ++ typeText (getField item "type")) ∧
    (∀ (item : Json) (rest : List Json),
        getField item "type" = some (Json.str "json") →
        jsTruthyO (getField item "data") = false →
        normalizeToolResult (Json.obj [("content", Json.arr (item :: rest))]) =
          "Unsupported content type: json") ∧
    (∀ (item : Json) (rest : List Json),
        getField item "type" = some (Json.str "text") →
        jsTruthyO (getField item "text") = false →
        normalizeToolResult (Json.obj [("content", Json.arr (item :: rest))]) =
          "Unsupported content type: text") ∧
    (∀ (item : Json) (k : String) (rest : List Json),
        getField item "type" = some (Json.str k) → k ≠ "json" → k ≠ "text" →
        normalizeToolResult (Json.obj [("content", Json.arr (item :: rest))]) =
          "Unsupported content type: " ++ k) ∧
    (normalizeToolResult (Json.obj [("content", Json.arr [])]) =
       "No content returned from tool.") ∧
    (∀ j : Json, getField j "content" = none →
        normalizeToolResult j = "No content returned from tool.") ∧
    (∀ (item : Json) (rest rest2 : List Json),
        normalizeToolResult (Json.obj [("content", Json.arr (item :: rest))]) =
          normalizeToolResult (Json.obj [("content", Json.arr (item :: rest2))])) := by
  refine ⟨?_, ?_, ?_, ?_, ?_, ?_, ?_, ?_, ?_⟩
  · intro item d rest h1 h2 h3
    rw [normalizeToolResult_cons, h1, h2]
    simp [isTypeTag, jsTruthyO, h3]
  · intro item s rest h1 h2 h3
    rw [normalizeToolResult_cons, h1, h2]
    simp [isTypeTag, jsTruthyO, jsTruthy, h3, jsToString]
  · intro item rest h1 h2
    rw [normalizeToolResult_cons]
    simp [h1, h2]
  · intro item rest h1 h2
    rw [normalizeToolResult_cons, h1]
    simp [isTypeTag, h2, typeText, jsToString]
  · intro item rest h1 h2
    rw [normalizeToolResult_cons, h1]
    simp [isTypeTag, h2, typeText, jsToString]
  · intro item k rest h1 h2 h3
    rw [normalizeToolResult_cons, h1]
    simp [isTypeTag, beq_iff_eq, h2, h3, typeText, jsToString]
  · rfl
  · intro j h
    simp [normalizeToolResult, h]
  · intro item rest rest2
    exact (normalizeToolResult_cons item rest).trans
      (normalizeToolResult_cons item rest2).symm

/-- Witness for claim C5 (amended): a concrete "text" item with non-empty
text yields exactly that text. -/
theorem normalize_result_cases_witness :
    normalizeToolResult (Json.obj [("content",
        Json.arr [Json.obj [("type", Json.str "text"), ("text", Json.str "ok")]])]) =
      "ok" :=
  normalize_result_cases.2.1
    (Json.obj [("type", Json.str "text"), ("text", Json.str "ok")]) "ok" []
    rfl rfl (by decide)

/-- The load bound is preserved by the registry update. -/
lemma updateLoad_le (servers : List (String × ServerInfo)) (nm : String)
    (h : ∀ p ∈ servers, p.2.load ≤ 100) :
    ∀ p ∈ updateLoad servers nm, p.2.load ≤ 100 := by
  intro p hp
  rcases List.mem_map.mp hp with ⟨q, hq, hpq⟩
  by_cases hqe : (q.1 == nm) = true
  · subst hpq
    simp [updateLoad, hqe, loadStep]
  · subst hpq
    simp only [hqe]
    simp [hqe]
    exact h q hq

/-- Every successful run of the pipeline body either leaves the registry
untouched or applies exactly one `updateLoad` to it. -/
lemma processQueryE_state_shape (o : Oracle) (st : PState) (q : String) :
    (∃ evs e, processQueryE o st q = (evs, Except.error e)) ∨
    (∃ evs s, processQueryE o st q = (evs, Except.ok (s, st))) ∨
    (∃ evs s nm, processQueryE o st q =
        (evs, Except.ok (s, PState.mk (updateLoad st.servers nm) st.sessions))) := by
  simp only [processQueryE]
  repeat' split
  all_goals
    first
      | exact Or.inl ⟨_, _, rfl⟩
      | exact Or.inr (Or.inl ⟨_, _, rfl⟩)
      | exact Or.inr (Or.inr ⟨_, _, _, rfl⟩)

/-- When the session `callTool` operation fails, the pipeline body cannot
return successfully with a modified state: any successful return leaves the
state unchanged. -/
lemma processQueryE_callTool_error (o : Oracle) (st : PState) (q : String)
    (e : PipeErr) (h : o.callToolOutcome = Except.error e)
    (evs : List Ev) (s : String) (st2 : PState)
    (hE : processQueryE o st q = (evs, Except.ok (s, st2))) : st2 = st := by
  simp only [processQueryE] at hE
  repeat' split at hE
  all_goals simp_all

/-- Claim C7: the per-server load never exceeds 100 no matter how many
successful invocations occur — one update is clamped (`loadStep l ≤ 100`),
any number of iterated updates stays at most 100, and one `processQuery` run
preserves the bound on every registry entry — and a failed invocation
(`callTool` raising) leaves the registry, hence the selected server's load,
unchanged. -/
theorem load_clamped_and_failure_unchanged :
    (∀ l : ℚ, loadStep l ≤ 100) ∧
    (∀ (n : Nat) (l : ℚ), l ≤ 100 → loadStep^[n] l ≤ 100) ∧
    (∀ (o : Oracle) (st : PState) (q : String),
       (∀ p ∈ st.servers, p.2.load ≤ 100) →
       ∀ p ∈ (processQuery o st q).2.1.servers, p.2.load ≤ 100) ∧
    (∀ (o : Oracle) (st : PState) (q : String) (e : PipeErr),
       o.callToolOutcome = Except.error e → (processQuery o st q).2.1 = st) := by
  have hstep : ∀ l : ℚ, loadStep l ≤ 100 := fun l => min_le_right _ _
  refine ⟨hstep, ?_, ?_, ?_⟩
  · intro n
    induction n with
    | zero => intro l hl; simpa using hl
    | succ m _ =>
      intro l _
      rw [Function.iterate_succ_apply']
      exact hstep _
  · intro o st q hb
    rcases processQueryE_state_shape o st q with ⟨evs, e, hE⟩ | ⟨evs, s, hE⟩ | ⟨evs, s, nm, hE⟩
    · simpa [processQuery, hE] using hb
    · simpa [processQuery, hE] using hb
    · simp only [processQuery, hE]
      exact updateLoad_le st.servers nm hb
  · intro o st q e he
    rcases processQueryE_state_shape o st q with ⟨evs, e2, hE⟩ | ⟨evs, s, hE⟩ | ⟨evs, s, nm, hE⟩
    · simp [processQuery, hE]
    · simp [processQuery, hE]
    · have := processQueryE_callTool_error o st q e he evs s _ hE
      simp [processQuery, hE, this]

/-- An oracle whose session call fails, used by the C7 witness. -/
def oracleCallFail : Oracle :=
  ⟨Except.ok "db", Except.ok "None", Except.ok none, Except.ok Json.null,
   Except.ok none, Except.error ⟨ErrKind.other, "connection reset"⟩⟩

/-- Witness for claim C7: a single clamped update stays at 100, and a
concrete run whose `callTool` fails leaves the concrete state unchanged. -/
theorem load_clamped_and_failure_unchanged_witness :
    loadStep 100 ≤ 100 ∧
    (processQuery oracleCallFail (PState.mk [] []) "q").2.1 = PState.mk [] [] :=
  ⟨load_clamped_and_failure_unchanged.1 100,
   load_clamped_and_failure_unchanged.2.2.2 oracleCallFail (PState.mk [] []) "q"
     ⟨ErrKind.other, "connection reset"⟩ rfl⟩

/-- Declared property types exercised against the schema coercion: a string
(with optional `minLength`), a number, or any other declared type (which
`jsonSchemaToZod` maps to `z.any()`; the representative "boolean" is used). -/
inductive PTy where
  | pstr : Option ℚ → PTy
  | pnum : PTy
  | pany : PTy

/-- The field validator `jsonSchemaToZod` produces for each declared type. -/
def tyField : PTy → ZField
  | PTy.pstr ml => ZField.zString (effMinLen ml)
  | PTy.pnum => ZField.zNumber
  | PTy.pany => ZField.zAny

/-- The JSON property schema for a declared type. -/
def mkPropJson : PTy → Json
  | PTy.pstr none => Json.obj [("type", Json.str "string")]
  | PTy.pstr (some q) =>
    Json.obj [("type", Json.str "string"), ("minLength", Json.num q)]
  | PTy.pnum => Json.obj [("type", Json.str "number")]
  | PTy.pany => Json.obj [("type", Json.str "boolean")]

/-- The member list of a well-formed tool input schema. -/
def mkSchemaFields (props : List (String × PTy)) (required : List String)
    (strict : Bool) : List (String × Json) :=
  [("type", Json.str "object"),
   ("properties", Json.obj (props.map (fun p => (p.1, mkPropJson p.2)))),
   ("required", Json.arr (required.map Json.str))]
  ++ (if strict then [("additionalProperties", Json.bool false)] else [])

/-- A well-formed tool input schema with the given properties, required list,
and `additionalProperties: false` flag. -/
def mkSchema (props : List (String × PTy)) (required : List String)
    (strict : Bool) : Json :=
  Json.obj (mkSchemaFields props required strict)

/-- Whether, per the specification, a supplied value fits a declared property
type: strings must be strings of at least the declared (nonzero) minimum
length, numbers must be numbers, and any other declared type accepts
everything. -/
def tyOk : PTy → Json → Bool
  | PTy.pany, _ => true
  | PTy.pstr ml, Json.str s =>
    (match effMinLen ml with
     | none => true
     | some q => decide (q ≤ (s.length : ℚ)))
  | PTy.pstr _, _ => false
  | PTy.pnum, Json.num _ => true
  | PTy.pnum, _ => false

/-- Whether an absent property passes validation despite being required:
only a property of a declared type other than string/number (coerced to
`z.any()`) does. -/
def tyAcceptsAbsent : PTy → Bool
  | PTy.pany => true
  | _ => false

/-- Modelled from the spec: the acceptance condition of Schema Coercion as
section 4.2 describes it, corrected by the `z.any()` observations — every
supplied declared property fits its declared type, every absent required
property is of a type that tolerates absence, and under "no additional
properties" every supplied key is declared. -/
def specAccepts (props : List (String × PTy)) (required : List String)
    (strict : Bool) (args : List (String × Json)) : Bool :=
  props.all (fun p =>
    match lookupBy args p.1 with
    | some v => tyOk p.2 v
    | none => !(required.contains p.1) || tyAcceptsAbsent p.2)
  && (!strict || args.all (fun kv => (props.map Prod.fst).contains kv.1))

/-- String `==` is symmetric. -/
lemma beq_symm_str (a b : String) : (a == b) = (b == a) := by
  by_cases h : a = b
  · subst h; rfl
  · rw [beq_eq_false_iff_ne.mpr h, beq_eq_false_iff_ne.mpr (Ne.symm h)]

/-- `Array.includes` over an array of string literals coincides with list
membership. -/
lemma includesStr_map_str (required : List String) (k : String) :
    includesStr (required.map Json.str) k = required.contains k := by
  induction required with
  | nil => rfl
  | cons r rs ih =>
    simp only [includesStr, List.map_cons, List.any_cons] at *
    rw [ih, List.contains_cons, beq_symm_str]

/-- `fieldOfProp` on a generated property schema never fails and produces the
expected field validator. -/
lemma fieldOfProp_mk (ty : PTy) : fieldOfProp (mkPropJson ty) = Except.ok (tyField ty) := by
  cases ty with
  | pstr ml => cases ml <;> rfl
  | pnum => rfl
  | pany => rfl

/-- Bind of a successful `Except` computation. -/
lemma exc_bind_ok {ε α β : Type} (a : α) (f : α → Except ε β) :
    (Except.ok a >>= f : Except ε β) = f a := rfl

/-- Pointwise-equal predicates have equal `all`. -/
lemma list_all_congr {α : Type} (l : List α) (f g : α → Bool)
    (h : ∀ x ∈ l, f x = g x) : l.all f = l.all g := by
  induction l with
  | nil => rfl
  | cons a as ih =>
    simp only [List.all_cons, h a (List.mem_cons_self a as)]
    rw [ih (fun x hx => h x (List.mem_cons_of_mem a hx))]

/-- Mapping then traversing with a function that succeeds pointwise yields the
pointwise results. -/
lemma mapM_ok_map {α β γ : Type} (f : γ → Except Unit β) (m : α → γ) (g : α → β)
    (l : List α) (h : ∀ x ∈ l, f (m x) = Except.ok (g x)) :
    (l.map m).mapM f = Except.ok (l.map g) := by
  induction l with
  | nil => rfl
  | cons a as ih =>
    rw [List.map_cons, List.mapM_cons, h a (List.mem_cons_self a as)]
    simp only [exc_bind_ok]
    rw [ih (fun x hx => h x (List.mem_cons_of_mem a hx))]
    simp only [exc_bind_ok]
    rfl

/-- `all` over a mapped list. -/
lemma list_all_map {α β : Type} (l : List α) (m : α → β) (p : β → Bool) :
    (l.map m).all p = l.all (fun x => p (m x)) := by
  induction l with
  | nil => rfl
  | cons a as ih => simp only [List.map_cons, List.all_cons, ih]

/-- The shape computation of `jsonSchemaToZod` over generated properties. -/
lemma mapM_shape (reqJ : Option Json) (reqFn : String → Bool)
    (hreq : ∀ k, requiredIncludes reqJ k = Except.ok (reqFn k))
    (props : List (String × PTy)) :
    (props.map (fun p => (p.1, mkPropJson p.2))).mapM
      (fun kv => do
        let fld ← fieldOfProp kv.2
        let req ← requiredIncludes reqJ kv.1
        pure (kv.1, fld, req)) =
      Except.ok (props.map (fun p => (p.1, tyField p.2, reqFn p.1))) := by
  apply mapM_ok_map
  intro x _
  simp only [fieldOfProp_mk, exc_bind_ok, hreq]
  rfl

/-- `jsonSchemaToZod` on a generated schema: each declared property becomes a
shape entry with its field validator and required flag, and strictness
follows `additionalProperties: false`. -/
lemma jsonSchemaToZod_mkSchema (props : List (String × PTy))
    (required : List String) (strict : Bool) :
    jsonSchemaToZod (mkSchema props required strict) =
      Except.ok (ZodT.zObject
        (props.map (fun p => (p.1, tyField p.2, required.contains p.1))) strict) := by
  have hty : lookupBy (mkSchemaFields props required strict) "type" =
      some (Json.str "object") := rfl
  have hprops : lookupBy (mkSchemaFields props required strict) "properties" =
      some (Json.obj (props.map (fun p => (p.1, mkPropJson p.2)))) := rfl
  have hreqf : lookupBy (mkSchemaFields props required strict) "required" =
      some (Json.arr (required.map Json.str)) := rfl
  have haddl : (match lookupBy (mkSchemaFields props required strict)
        "additionalProperties" with
      | some (Json.bool false) => true
      | _ => false) = strict := by
    cases strict <;> rfl
  have hreq : ∀ k, requiredIncludes (some (Json.arr (required.map Json.str))) k =
      Except.ok (required.contains k) := by
    intro k
    simp [requiredIncludes, includesStr_map_str]
  simp only [mkSchema, jsonSchemaToZod, hty, hprops, hreqf, haddl]
  simp only [jsTruthyO, jsTruthy, Option.getD, objEntries]
  rw [mapM_shape (some (Json.arr (required.map Json.str)))
    (fun k => required.contains k) hreq props]
  simp [haddl]

/-- A present value is validated identically by the zod field validator and
the specification-side type test. -/
lemma zFieldAccepts_tyField (ty : PTy) (v : Json) :
    zFieldAccepts (tyField ty) v = tyOk ty v := by
  cases ty <;> cases v <;> rfl

/-- An absent field is tolerated by the zod validator exactly per
`tyAcceptsAbsent`. -/
lemma zFieldAcceptsMissing_tyField (ty : PTy) :
    zFieldAcceptsMissing (tyField ty) = tyAcceptsAbsent ty := by
  cases ty <;> rfl

/-- The schema with a single required property of a non-string/number type. -/
def schemaCex : Json := mkSchema [("flag", PTy.pany)] ["flag"] false

/-- Claim C2 counterexample: `schemaCex` has the non-empty required list
`["flag"]`, the empty argument map omits `flag`, yet the coercion validator
accepts it — the declared type "boolean" is coerced to `z.any()`, which
accepts `undefined` even for a required key.  So the rejection half of the
claim is false. -/
theorem required_any_field_accepts_missing :
    getField schemaCex "required" = some (Json.arr [Json.str "flag"]) ∧
    lookupBy ([] : List (String × Json)) "flag" = none ∧
    validateArgs schemaCex (Json.obj []) = Except.ok true :=
  ⟨rfl, rfl, rfl⟩

/-- Claim C2 (amended): for every generated tool schema, the coercion
validator accepts an argument map exactly when (a) every supplied declared
property fits its declared type — a string meets any nonzero declared minimum
length, a number is a number, and any other declared type accepts everything
— (b) every required declared property of type string or number is supplied,
and (c) when the schema declares no additional properties, every key of the
map is a declared property.  In particular a map omitting a required
string/number property is rejected, and extra keys are rejected only in
strict mode; a required property of another declared type is coerced to
`z.any()` and may be omitted. -/
theorem schema_coercion_characterization (props : List (String × PTy))
    (required : List String) (strict : Bool) (args : List (String × Json)) :
    validateArgs (mkSchema props required strict) (Json.obj args) =
      Except.ok (specAccepts props required strict args) := by
  simp only [validateArgs, jsonSchemaToZod_mkSchema, exc_bind_ok]
  refine congrArg Except.ok ?_
  simp only [zodAccepts, specAccepts]
  have hfst : (props.map (fun p => (p.1, tyField p.2, required.contains p.1))).all
      (fun ent => match lookupBy args ent.1 with
        | some val => zFieldAccepts ent.2.1 val
        | none => if ent.2.2 then zFieldAcceptsMissing ent.2.1 else true) =
      props.all (fun p => match lookupBy args p.1 with
        | some v => tyOk p.2 v
        | none => !(required.contains p.1) || tyAcceptsAbsent p.2) := by
    rw [list_all_map]
    apply list_all_congr
    intro p _
    simp only [Function.comp]
    cases h : lookupBy args p.1 with
    | none =>
      cases hc : required.contains p.1 with
      | true => simp [hc, zFieldAcceptsMissing_tyField]
      | false => simp [hc]
    | some v => simp [zFieldAccepts_tyField]
  have hsnd : ∀ kv : String × Json,
      (props.map (fun p => (p.1, tyField p.2, required.contains p.1))).any
          (fun ent => ent.1 == kv.1) =
        (props.map Prod.fst).contains kv.1 := by
    intro kv
    clear hfst
    induction props with
    | nil => rfl
    | cons p ps ih =>
      simp only [List.map_cons, List.any_cons, List.contains_cons, ih]
      rw [beq_symm_str]
  rw [hfst]
  cases strict with
  | false => rfl
  | true =>
    simp only [Bool.not_true, Bool.false_or]
    rw [list_all_congr args _ _ (fun kv _ => hsnd kv)]

/-- The empty list is a prefix of everything. -/
lemma nil_isPrefixOf (l : List Char) : ([] : List Char).isPrefixOf l = true := by
  cases l <;> rfl

/-- A nonempty list is not a prefix of the empty list. -/
lemma cons_isPrefixOf_nil (x : Char) (p : List Char) :
    (x :: p).isPrefixOf ([] : List Char) = false := rfl

/-- A prefix found at some offset is a substring. -/
lemma hasSub_of_prefix_drop (p t : List Char) :
    ∀ i, p.isPrefixOf (t.drop i) = true → hasSub p t = true := by
  induction t with
  | nil =>
    intro i h
    rw [List.drop_nil] at h
    simpa [hasSub] using h
  | cons c t ih =>
    intro i h
    cases i with
    | zero =>
      rw [List.drop_zero] at h
      simp [hasSub, h]
    | succ i' =>
      have := ih i' (by simpa using h)
      simp [hasSub, this]

/-- A prefix of a longer pattern is a prefix. -/
lemma prefix_of_append_left (a b t : List Char)
    (h : (a ++ b).isPrefixOf t = true) : a.isPrefixOf t = true := by
  induction a generalizing t with
  | nil => exact nil_isPrefixOf t
  | cons x a' ih =>
    cases t with
    | nil => simp [cons_isPrefixOf_nil] at h
    | cons y t' =>
      rw [List.cons_append, List.isPrefixOf_cons₂] at h
      rw [List.isPrefixOf_cons₂]
      simp only [Bool.and_eq_true] at h
      rw [h.1, ih t' h.2]
      rfl

/-- The json-tagged fence literal extends the bare fence literal. -/
lemma fenceJson_append : fenceJsonChars = fenceChars ++ "json".data := rfl

/-- The fence-removing scan leaves any fence-free text unchanged. -/
lemma stripGo_id (t : List Char) (h : hasSub fenceChars t = false) :
    ∀ fuel, t.length ≤ fuel → stripGo fuel t = t := by
  induction t with
  | nil => intro fuel _; cases fuel <;> rfl
  | cons c t ih =>
    intro fuel hf
    have hsplit : fenceChars.isPrefixOf (c :: t) = false ∧ hasSub fenceChars t = false := by
      have := h
      simp only [hasSub, Bool.or_eq_false_iff] at this
      exact this
    cases fuel with
    | zero => simp at hf
    | succ f =>
      have h1 : fenceJsonChars.isPrefixOf (c :: t) = false := by
        cases hj : fenceJsonChars.isPrefixOf (c :: t) with
        | false => rfl
        | true =>
          have hp : fenceChars.isPrefixOf (c :: t) = true :=
            prefix_of_append_left fenceChars ("json".data) (c :: t)
              (by rw [← fenceJson_append]; exact hj)
          rw [hp] at hsplit
          exact absurd hsplit.1 (by simp)
      have h2 : fenceChars.isPrefixOf ((c :: t).drop (wsCount (c :: t))) = false := by
        cases hj : fenceChars.isPrefixOf ((c :: t).drop (wsCount (c :: t))) with
        | false => rfl
        | true =>
          have := hasSub_of_prefix_drop fenceChars (c :: t) (wsCount (c :: t)) hj
          rw [this] at h
          exact absurd h (by simp)
      have hlen : t.length ≤ f := by
        simp only [List.length_cons] at hf
        omega
      simp only [stripGo, h1, h2, Bool.false_eq_true, if_false, ih hsplit.2 f hlen]

/-- The full scan is the identity on fence-free text. -/
lemma stripScan_id (t : List Char) (h : hasSub fenceChars t = false) :
    stripScan t = t :=
  stripGo_id t h t.length (le_refl _)

/-- Dropping a satisfied prefix twice equals dropping it once. -/
lemma dropWhile_idem (p : Char → Bool) (t : List Char) :
    List.dropWhile p (List.dropWhile p t) = List.dropWhile p t := by
  induction t with
  | nil => rfl
  | cons c t ih =>
    cases hc : p c with
    | true => simp [List.dropWhile_cons, hc, ih]
    | false => simp [List.dropWhile_cons, hc]

/-- Left trim is idempotent. -/
lemma trimLeftChars_idem (t : List Char) :
    trimLeftChars (trimLeftChars t) = trimLeftChars t :=
  dropWhile_idem isJsWs t

/-- One-step unfolding of the right trim. -/
lemma trimRightChars_cons (c : Char) (t : List Char) :
    trimRightChars (c :: t) =
      (match trimRightChars t with
       | [] => if isJsWs c then [] else [c]
       | w => c :: w) := rfl

/-- Right trim is idempotent. -/
lemma trimRightChars_idem (t : List Char) :
    trimRightChars (trimRightChars t) = trimRightChars t := by
  induction t with
  | nil => rfl
  | cons c t ih =>
    rw [trimRightChars_cons]
    cases htr : trimRightChars t with
    | nil =>
      cases hc : isJsWs c with
      | true => simp [hc, trimRightChars]
      | false => simp [hc, trimRightChars_cons, trimRightChars]
    | cons d w =>
      rw [htr] at ih
      rw [trimRightChars_cons, ih]

/-- Dropped-prefix length bound. -/
lemma length_dropWhile_le (p : Char → Bool) (t : List Char) :
    (List.dropWhile p t).length ≤ t.length := by
  induction t with
  | nil => exact le_refl _
  | cons c t ih =>
    cases hc : p c with
    | true =>
      rw [List.dropWhile_cons, if_pos hc]
      exact le_trans ih (Nat.le_succ _)
    | false => rw [List.dropWhile_cons, if_neg (by simp [hc])]

/-- A left-trimmed list stays left-trimmed after a right trim. -/
lemma trimLeft_fixed_of_trimRight (x : List Char) (h : trimLeftChars x = x) :
    trimLeftChars (trimRightChars x) = trimRightChars x := by
  cases x with
  | nil => rfl
  | cons c x' =>
    have hc : isJsWs c = false := by
      cases hc : isJsWs c with
      | false => rfl
      | true =>
        have hlen := congrArg List.length h
        rw [trimLeftChars, List.dropWhile_cons, if_pos (by simp [hc])] at hlen
        have := length_dropWhile_le isJsWs x'
        simp only [List.length_cons] at hlen
        omega
    rw [trimRightChars_cons]
    cases htr : trimRightChars x' with
    | nil => simp [hc, trimLeftChars, List.dropWhile_cons]
    | cons d w => simp [hc, trimLeftChars, List.dropWhile_cons]

/-- The full trim is idempotent. -/
lemma jsTrimChars_idem (t : List Char) :
    jsTrimChars (jsTrimChars t) = jsTrimChars t := by
  show trimRightChars (trimLeftChars (trimRightChars (trimLeftChars t))) = _
  rw [trimLeft_fixed_of_trimRight _ (trimLeftChars_idem t), trimRightChars_idem]
  rfl

/-- The empty pattern occurs in everything. -/
lemma hasSub_nil_pat (t : List Char) : hasSub ([] : List Char) t = true := by
  cases t <;> simp [hasSub, nil_isPrefixOf]

/-- Prefix order is transitive. -/
lemma prefix_trans (a b c : List Char) (h1 : a.isPrefixOf b = true)
    (h2 : b.isPrefixOf c = true) : a.isPrefixOf c = true := by
  induction a generalizing b c with
  | nil => exact nil_isPrefixOf c
  | cons x a' ih =>
    cases b with
    | nil => simp [cons_isPrefixOf_nil] at h1
    | cons y b' =>
      cases c with
      | nil => simp [cons_isPrefixOf_nil] at h2
      | cons z c' =>
        simp only [List.isPrefixOf_cons₂, Bool.and_eq_true, beq_iff_eq] at h1 h2 ⊢
        exact ⟨h1.1.trans h2.1, ih b' c' h1.2 h2.2⟩

/-- A substring of a prefix is a substring of the whole. -/
lemma hasSub_of_prefix (p u t : List Char) (hu : u.isPrefixOf t = true)
    (h : hasSub p u = true) : hasSub p t = true := by
  induction u generalizing t with
  | nil =>
    cases p with
    | nil => exact hasSub_nil_pat t
    | cons x p' => simp [hasSub, cons_isPrefixOf_nil] at h
  | cons a u' ih =>
    cases t with
    | nil => simp [cons_isPrefixOf_nil] at hu
    | cons b t' =>
      simp only [List.isPrefixOf_cons₂, Bool.and_eq_true] at hu
      simp only [hasSub, Bool.or_eq_true] at h
      cases h with
      | inl hpre =>
        have hub : (a :: u').isPrefixOf (b :: t') = true := by
          simp [List.isPrefixOf_cons₂, hu.1, hu.2]
        have := prefix_trans p (a :: u') (b :: t') hpre hub
        simp [hasSub, this]
      | inr hsub =>
        have := ih t' hu.2 hsub
        simp [hasSub, this]

/-- The right trim yields a prefix of the original. -/
lemma trimRight_isPrefixOf (t : List Char) :
    (trimRightChars t).isPrefixOf t = true := by
  induction t with
  | nil => rfl
  | cons c t ih =>
    rw [trimRightChars_cons]
    cases htr : trimRightChars t with
    | nil =>
      cases hc : isJsWs c with
      | true => simp [nil_isPrefixOf]
      | false => simp [hc, List.isPrefixOf_cons₂, nil_isPrefixOf]
    | cons d w =>
      rw [htr] at ih
      simp [List.isPrefixOf_cons₂, ih]

/-- A substring of the right-trimmed list occurs in the original. -/
lemma hasSub_trimRight (p t : List Char) (h : hasSub p (trimRightChars t) = true) :
    hasSub p t = true :=
  hasSub_of_prefix p (trimRightChars t) t (trimRight_isPrefixOf t) h

/-- A substring of the left-trimmed list occurs in the original. -/
lemma hasSub_dropWhile (p : List Char) (q : Char → Bool) (t : List Char)
    (h : hasSub p (List.dropWhile q t) = true) : hasSub p t = true := by
  induction t with
  | nil => exact h
  | cons c t ih =>
    cases hq : q c with
    | true =>
      rw [List.dropWhile_cons, if_pos (by simp [hq])] at h
      simp [hasSub, ih h]
    | false =>
      rw [List.dropWhile_cons, if_neg (by simp [hq])] at h
      exact h

/-- A substring of the trimmed list occurs in the original. -/
lemma hasSub_jsTrim (p t : List Char) (h : hasSub p (jsTrimChars t) = true) :
    hasSub p t = true :=
  hasSub_dropWhile p isJsWs t (hasSub_trimRight p (trimLeftChars t) h)

/-- Claim C8 counterexample: on the input consisting of a backtick, a space,
and five backticks, one strip pass leaves the string "```" (the leftover
backticks of two partial fences coalesce), and a second pass removes it — so
stripping twice differs from stripping once and `cleanMarkdownJson` is not
idempotent. -/
theorem cleanMarkdownJson_not_idempotent :
    cleanMarkdownJson "` `````" = "```" ∧
    cleanMarkdownJson (cleanMarkdownJson "` `````") = "" ∧
    cleanMarkdownJson (cleanMarkdownJson "` `````") ≠ cleanMarkdownJson "` `````" :=
  ⟨rfl, rfl, by decide⟩

/-- Claim C8 (amended): on every string containing no triple-backtick
sequence, `cleanMarkdownJson` returns the string unchanged except for
trimming surrounding whitespace, and on such strings it is idempotent.  (Full
idempotence fails: see the counterexample.) -/
theorem cleanMarkdownJson_fence_free (s : String)
    (h : hasSub fenceChars s.data = false) :
    cleanMarkdownJson s = jsTrimString s ∧
    cleanMarkdownJson (cleanMarkdownJson s) = cleanMarkdownJson s := by
  have h1 : cleanMarkdownJson s = jsTrimString s := by
    simp only [cleanMarkdownJson, jsTrimString, stripScan_id s.data h]
  refine ⟨h1, ?_⟩
  rw [h1]
  have hdata : (jsTrimString s).data = jsTrimChars s.data := rfl
  have h2 : hasSub fenceChars (jsTrimString s).data = false := by
    rw [hdata]
    cases hh : hasSub fenceChars (jsTrimChars s.data) with
    | false => rfl
    | true =>
      rw [hasSub_jsTrim fenceChars s.data hh] at h
      exact absurd h (by simp)
  show (⟨jsTrimChars (stripScan (jsTrimString s).data)⟩ : String) = jsTrimString s
  rw [stripScan_id _ h2, hdata, jsTrimChars_idem]
  rfl

/-- Witness for claim C8 (amended): a fence-free string with surrounding
whitespace is trimmed, and re-stripping the result changes nothing. -/
theorem cleanMarkdownJson_fence_free_witness :
    cleanMarkdownJson " query " = jsTrimString " query " ∧
    cleanMarkdownJson (cleanMarkdownJson " query ") = cleanMarkdownJson " query " :=
  cleanMarkdownJson_fence_free " query " (by decide)

/-- Claim C9 counterexample: in "a```b" the triple-backtick sequence is
strictly inside the text — it is neither a leading nor a trailing fence — yet
the stripper removes it (the replace is global), so interior fences are not
preserved. -/
theorem interior_fence_not_preserved :
    cleanMarkdownJson "a```b" = "ab" ∧
    hasSub fenceChars ("a```b").data = true ∧
    hasSub fenceChars (cleanMarkdownJson "a```b").data = false :=
  ⟨rfl, by decide, by decide⟩

/-- Characters that interact with no regex alternative: not a backtick and
not whitespace. -/
def plainChunk (t : List Char) : Bool :=
  t.all (fun c => !(c == '`') && !(isJsWs c))

/-- Fence-free-ness of plain text. -/
lemma plain_no_fence (t : List Char) (hp : plainChunk t = true) :
    hasSub fenceChars t = false := by
  induction t with
  | nil => rfl
  | cons c t ih =>
    simp only [plainChunk, List.all_cons, Bool.and_eq_true] at hp
    have hc : (c == '`') = false := by
      cases hcc : (c == '`') with
      | false => rfl
      | true => rw [hcc] at hp; exact absurd hp.1.1 (by simp)
    have hpre : fenceChars.isPrefixOf (c :: t) = false := by
      rw [show fenceChars = '`' :: '`' :: '`' :: [] from rfl, List.isPrefixOf_cons₂]
      have : ('`' == c) = false := by
        rw [beq_eq_false_iff_ne] at hc ⊢
        exact Ne.symm hc
      simp [this]
    have htail : hasSub fenceChars t = false := ih (by simp [plainChunk, hp.2])
    simp [hasSub, hpre, htail]

/-- Cancelling a shared prefix of the pattern and the text. -/
lemma isPrefixOf_append_cancel (x y z : List Char) :
    (x ++ y).isPrefixOf (x ++ z) = y.isPrefixOf z := by
  induction x with
  | nil => rfl
  | cons a x' ih => simp [List.isPrefixOf_cons₂, ih]

/-- A list is a prefix of itself extended. -/
lemma self_append_isPrefixOf (x z : List Char) : x.isPrefixOf (x ++ z) = true := by
  induction x with
  | nil => exact nil_isPrefixOf z
  | cons a x' ih => simp [List.isPrefixOf_cons₂, ih]

/-- The scan copies plain text verbatim. -/
lemma stripGo_copy (u v : List Char) (hu : plainChunk u = true) :
    ∀ fuel, u.length ≤ fuel →
      stripGo fuel (u ++ v) = u ++ stripGo (fuel - u.length) v := by
  induction u with
  | nil => intro fuel _; simp
  | cons c u' ih =>
    intro fuel hf
    simp only [plainChunk, List.all_cons, Bool.and_eq_true] at hu
    have hc : (c == '`') = false := by
      cases hcc : (c == '`') with
      | false => rfl
      | true => rw [hcc] at hu; exact absurd hu.1.1 (by simp)
    have hw : isJsWs c = false := by
      cases hcc : isJsWs c with
      | false => rfl
      | true => rw [hcc] at hu; exact absurd hu.1.2 (by simp)
    have hcsym : ('`' == c) = false := by
      rw [beq_eq_false_iff_ne] at hc ⊢
      exact Ne.symm hc
    cases fuel with
    | zero => simp at hf
    | succ f =>
      have h1 : fenceJsonChars.isPrefixOf (c :: (u' ++ v)) = false := by
        rw [show fenceJsonChars = '`' :: "``json".data from rfl, List.isPrefixOf_cons₂]
        simp [hcsym]
      have hk : wsCount (c :: (u' ++ v)) = 0 := by simp [wsCount, hw]
      have h2 : fenceChars.isPrefixOf ((c :: (u' ++ v)).drop (wsCount (c :: (u' ++ v)))) = false := by
        rw [hk, List.drop_zero,
          show fenceChars = '`' :: '`' :: '`' :: [] from rfl, List.isPrefixOf_cons₂]
        simp [hcsym]
      have hlen : u'.length ≤ f := by
        simp only [List.length_cons] at hf
        omega
      show stripGo (f + 1) (c :: (u' ++ v)) = (c :: u') ++ stripGo (f + 1 - (c :: u').length) v
      simp only [stripGo, h1, h2, Bool.false_eq_true, if_false]
      rw [ih (by simp [plainChunk, hu.2]) f hlen]
      simp [List.length_cons, Nat.succ_sub_succ]

/-- The scan consumes a bare leading fence (not json-tagged) and continues. -/
lemma stripGo_at_fence (lb : List Char) (hb : plainChunk lb = true)
    (hjson : ("json".data).isPrefixOf lb = false) :
    ∀ fuel, lb.length + 1 ≤ fuel → stripGo fuel (fenceChars ++ lb) = lb := by
  intro fuel hf
  cases fuel with
  | zero => simp at hf
  | succ f =>
    have hceq : fenceChars ++ lb = '`' :: ('`' :: '`' :: lb) := rfl
    have h1 : fenceJsonChars.isPrefixOf ('`' :: ('`' :: '`' :: lb)) = false := by
      rw [← hceq, fenceJson_append, isPrefixOf_append_cancel]
      exact hjson
    have hws : isJsWs '`' = false := by decide
    have hk : wsCount ('`' :: ('`' :: '`' :: lb)) = 0 := by
      simp [wsCount, hws]
    have h2 : fenceChars.isPrefixOf (List.drop 0 ('`' :: ('`' :: '`' :: lb))) = true := by
      rw [List.drop_zero, ← hceq]
      exact self_append_isPrefixOf fenceChars lb
    rw [hceq]
    simp only [stripGo, h1, hk, h2, Bool.false_eq_true, if_false, if_true]
    exact stripGo_id lb (plain_no_fence lb hb) f (by omega)

/-- Left trim is the identity on plain text. -/
lemma trimLeft_plain (t : List Char) (hp : plainChunk t = true) :
    trimLeftChars t = t := by
  cases t with
  | nil => rfl
  | cons c t' =>
    simp only [plainChunk, List.all_cons, Bool.and_eq_true] at hp
    have hw : isJsWs c = false := by
      cases hcc : isJsWs c with
      | false => rfl
      | true => rw [hcc] at hp; exact absurd hp.1.2 (by simp)
    simp [trimLeftChars, List.dropWhile_cons, hw]

/-- Right trim is the identity on plain text. -/
lemma trimRight_plain (t : List Char) (hp : plainChunk t = true) :
    trimRightChars t = t := by
  induction t with
  | nil => rfl
  | cons c t' ih =>
    simp only [plainChunk, List.all_cons, Bool.and_eq_true] at hp
    have hw : isJsWs c = false := by
      cases hcc : isJsWs c with
      | false => rfl
      | true => rw [hcc] at hp; exact absurd hp.1.2 (by simp)
    have ht : trimRightChars t' = t' := ih (by simp [plainChunk, hp.2])
    rw [trimRightChars_cons, ht]
    cases t' with
    | nil => simp [hw]
    | cons d w => rfl

/-- Plainness of a concatenation. -/
lemma plainChunk_append (x y : List Char) (hx : plainChunk x = true)
    (hy : plainChunk y = true) : plainChunk (x ++ y) = true := by
  simp only [plainChunk, List.all_append, Bool.and_eq_true]
  exact ⟨hx, hy⟩

/-- Whitespace runs never start with a backtick. -/
lemma ws_not_btick (c : Char) (h : isJsWs c = true) : ('`' == c) = false := by
  rw [beq_eq_false_iff_ne]
  intro he
  rw [← he] at h
  exact absurd h (by decide)

/-- Plain text has no leading whitespace. -/
lemma plain_wsCount (b : List Char) (hb : plainChunk b = true) : wsCount b = 0 := by
  cases b with
  | nil => rfl
  | cons c b' =>
    simp only [plainChunk, List.all_cons, Bool.and_eq_true, Bool.not_eq_true'] at hb
    simp [wsCount, hb.1.2]

/-- The greedy whitespace run over a whitespace block followed by
non-whitespace (or nothing) has exactly the block's length. -/
lemma wsCount_ws_append (w : List Char) (hw : w.all isJsWs = true)
    (z : List Char) (hz : wsCount z = 0) : wsCount (w ++ z) = w.length := by
  induction w with
  | nil => exact hz
  | cons a w' ih =>
    simp only [List.all_cons, Bool.and_eq_true] at hw
    simp [wsCount, hw.1, ih hw.2]

/-- Concatenating plain chunks is plain. -/
lemma plainChunk_flatten (l : List (List Char))
    (h : ∀ c ∈ l, plainChunk c = true) : plainChunk l.flatten = true := by
  induction l with
  | nil => rfl
  | cons c l' ih =>
    rw [List.flatten_cons]
    exact plainChunk_append c l'.flatten (h c (List.mem_cons_self c l'))
      (ih (fun d hd => h d (List.mem_cons_of_mem c hd)))

/-- A backtick-free pattern matching across a following backtick must already
match within the left part. -/
lemma no_btick_spill (p : List Char) (hp : '`' ∉ p) :
    ∀ (d Z : List Char), p.isPrefixOf (d ++ '`' :: Z) = true →
      p.isPrefixOf d = true := by
  induction p with
  | nil => intro d _ _; exact nil_isPrefixOf d
  | cons x p' ih =>
    intro d Z h
    cases d with
    | nil =>
      simp only [List.nil_append, List.isPrefixOf_cons₂, Bool.and_eq_true,
        beq_iff_eq] at h
      obtain ⟨h1, _⟩ := h
      subst h1
      exact absurd (List.mem_cons_self _ _) hp
    | cons e d' =>
      simp only [List.cons_append, List.isPrefixOf_cons₂, Bool.and_eq_true] at h ⊢
      exact ⟨h.1, ih (fun hm => hp (List.mem_cons_of_mem x hm)) d' Z h.2⟩

/-- Plain chunks interleaved with bare fences. -/
def joinWithFence : List (List Char) → List Char
  | [] => []
  | [c] => c
  | c :: d :: rest => c ++ (fenceChars ++ joinWithFence (d :: rest))

/-- The json tag cannot match at the head of a fence-joined chunk list whose
first chunk it does not match. -/
lemma join_head_json_false (d : List Char) (rest : List (List Char))
    (hd : ("json".data).isPrefixOf d = false) :
    ("json".data).isPrefixOf (joinWithFence (d :: rest)) = false := by
  cases rest with
  | nil => exact hd
  | cons e rest' =>
    cases hj : ("json".data).isPrefixOf (joinWithFence (d :: e :: rest')) with
    | false => rfl
    | true =>
      rw [show joinWithFence (d :: e :: rest') =
          d ++ '`' :: ('`' :: '`' :: joinWithFence (e :: rest')) from rfl] at hj
      rw [no_btick_spill ("json".data) (by decide) d
        ('`' :: '`' :: joinWithFence (e :: rest')) hj] at hd
      exact absurd hd (by simp)

/-- The scan consumes a bare fence not followed by the json tag and
continues after it. -/
lemma stripGo_fence_step (R : List Char)
    (hjson : ("json".data).isPrefixOf R = false) (fuel : Nat) :
    stripGo (fuel + 1) (fenceChars ++ R) = stripGo fuel R := by
  have hceq : fenceChars ++ R = '`' :: ('`' :: '`' :: R) := rfl
  have h1 : fenceJsonChars.isPrefixOf ('`' :: ('`' :: '`' :: R)) = false := by
    rw [← hceq, fenceJson_append, isPrefixOf_append_cancel]
    exact hjson
  have hws : isJsWs '`' = false := by decide
  have hk : wsCount ('`' :: ('`' :: '`' :: R)) = 0 := by simp [wsCount, hws]
  have h2 : fenceChars.isPrefixOf (List.drop 0 ('`' :: ('`' :: '`' :: R))) = true := by
    rw [List.drop_zero, ← hceq]
    exact self_append_isPrefixOf fenceChars R
  rw [hceq]
  simp only [stripGo, h1, hk, h2, Bool.false_eq_true, if_false, if_true]
  rfl

/-- The scan consumes a nonempty whitespace run together with the following
bare fence and continues after the fence. -/
lemma stripGo_ws_fence (c : Char) (w' b : List Char)
    (hw : (c :: w').all isJsWs = true) (fuel : Nat) :
    stripGo (fuel + 1) ((c :: w') ++ (fenceChars ++ b)) = stripGo fuel b := by
  have hws : isJsWs c = true := by
    simp only [List.all_cons, Bool.and_eq_true] at hw
    exact hw.1
  have hbt : ('`' == c) = false := ws_not_btick c hws
  have h1 : fenceJsonChars.isPrefixOf (c :: (w' ++ (fenceChars ++ b))) = false := by
    rw [show fenceJsonChars = '`' :: "``json".data from rfl, List.isPrefixOf_cons₂]
    simp [hbt]
  have h0 : wsCount (fenceChars ++ b) = 0 := by
    have hbw : isJsWs '`' = false := by decide
    simp [show fenceChars ++ b = '`' :: ('`' :: '`' :: b) from rfl, wsCount, hbw]
  have hk : wsCount (c :: (w' ++ (fenceChars ++ b))) = (c :: w').length :=
    wsCount_ws_append (c :: w') hw (fenceChars ++ b) h0
  have h2 : fenceChars.isPrefixOf
      (List.drop ((c :: w').length) (c :: (w' ++ (fenceChars ++ b)))) = true := by
    have hd : List.drop ((c :: w').length) ((c :: w') ++ (fenceChars ++ b)) =
        fenceChars ++ b := by
      have h := @List.drop_append _ (c :: w') (fenceChars ++ b) 0
      simp only [Nat.add_zero, List.drop_zero] at h
      exact h
    rw [show (c :: (w' ++ (fenceChars ++ b))) = (c :: w') ++ (fenceChars ++ b) from rfl,
      hd]
    exact self_append_isPrefixOf fenceChars b
  show stripGo (fuel + 1) (c :: (w' ++ (fenceChars ++ b))) = stripGo fuel b
  simp only [stripGo, h1, hk, h2, Bool.false_eq_true, if_false, if_true]
  have hdrop : List.drop ((c :: w').length + 3) ((c :: w') ++ (fenceChars ++ b)) = b := by
    rw [@List.drop_append _ (c :: w') (fenceChars ++ b) 3]
    rfl
  rw [show (c :: (w' ++ (fenceChars ++ b))) = (c :: w') ++ (fenceChars ++ b) from rfl,
    hdrop]

/-- The scan consumes a json-tagged fence together with the following
whitespace run (the greedy first alternative) and continues after it. -/
lemma stripGo_jsonfence_step (w b : List Char) (hw : w.all isJsWs = true)
    (hb0 : wsCount b = 0) (fuel : Nat) :
    stripGo (fuel + 1) (fenceJsonChars ++ (w ++ b)) = stripGo fuel b := by
  have hceq : fenceJsonChars ++ (w ++ b) =
      '`' :: ('`' :: '`' :: 'j' :: 's' :: 'o' :: 'n' :: (w ++ b)) := rfl
  have h1 : fenceJsonChars.isPrefixOf
      ('`' :: ('`' :: '`' :: 'j' :: 's' :: 'o' :: 'n' :: (w ++ b))) = true := by
    rw [← hceq]
    exact self_append_isPrefixOf fenceJsonChars (w ++ b)
  have hdrop7 : List.drop 7
      ('`' :: ('`' :: '`' :: 'j' :: 's' :: 'o' :: 'n' :: (w ++ b))) = w ++ b := rfl
  have hwc : wsCount (w ++ b) = w.length := wsCount_ws_append w hw b hb0
  have hdropAll : List.drop (7 + w.length)
      ('`' :: ('`' :: '`' :: 'j' :: 's' :: 'o' :: 'n' :: (w ++ b))) = b := by
    rw [show ('`' :: ('`' :: '`' :: 'j' :: 's' :: 'o' :: 'n' :: (w ++ b))) =
        (fenceJsonChars ++ w) ++ b from by rw [← hceq, List.append_assoc],
      show 7 + w.length = (fenceJsonChars ++ w).length + 0 from by
        simp [List.length_append, show fenceJsonChars.length = 7 from rfl],
      List.drop_append, List.drop_zero]
  rw [hceq]
  simp only [stripGo, h1, if_true, hdrop7, hwc, hdropAll]

/-- The scan over plain chunks joined by bare fences removes every fence and
concatenates the chunks, provided no chunk after the first starts with the
json tag. -/
lemma stripGo_join (c0 : List Char) (rest : List (List Char)) :
    ∀ fuel, plainChunk c0 = true → (∀ c ∈ rest, plainChunk c = true) →
      (∀ c ∈ rest, ("json".data).isPrefixOf c = false) →
      (joinWithFence (c0 :: rest)).length ≤ fuel →
      stripGo fuel (joinWithFence (c0 :: rest)) = (c0 :: rest).flatten := by
  induction rest generalizing c0 with
  | nil =>
    intro fuel h0 _ _ hf
    rw [show joinWithFence [c0] = c0 from rfl] at hf ⊢
    rw [stripGo_id c0 (plain_no_fence c0 h0) fuel hf]
    simp
  | cons d rest' ih =>
    intro fuel h0 hall hjson hf
    rw [show joinWithFence (c0 :: d :: rest') =
        c0 ++ (fenceChars ++ joinWithFence (d :: rest')) from rfl] at hf ⊢
    have hflen : c0.length + (3 + (joinWithFence (d :: rest')).length) ≤ fuel := by
      simpa [List.length_append, show fenceChars.length = 3 from rfl] using hf
    rw [stripGo_copy c0 (fenceChars ++ joinWithFence (d :: rest')) h0 fuel
      (by omega)]
    obtain ⟨k, hk⟩ : ∃ k, fuel - c0.length = k + 1 :=
      ⟨fuel - c0.length - 1, by omega⟩
    rw [hk, stripGo_fence_step (joinWithFence (d :: rest'))
      (join_head_json_false d rest' (hjson d (List.mem_cons_self d rest'))) k]
    rw [ih d k (hall d (List.mem_cons_self d rest'))
      (fun c hc => hall c (List.mem_cons_of_mem d hc))
      (fun c hc => hjson c (List.mem_cons_of_mem d hc))
      (by omega)]
    simp [List.flatten_cons]

/-- Claim C9 (amended): the stripper's replace is global, so it removes every
matched fence token wherever it occurs, not only leading or trailing ones:
(i) any number of bare fences separating backtick-free, whitespace-free
segments (no segment after a fence starting with the tag "json") are all
removed, leaving exactly the segments concatenated in order; (ii) a bare
fence absorbs a preceding whitespace run; (iii) a json-tagged fence absorbs
a following whitespace run; in each case the surrounding plain text is
preserved in order and the result trimmed. -/
theorem cleanMarkdownJson_global_fence_removal :
    (∀ (c0 : List Char) (rest : List (List Char)),
        plainChunk c0 = true → (∀ c ∈ rest, plainChunk c = true) →
        (∀ c ∈ rest, ("json".data).isPrefixOf c = false) →
        cleanMarkdownJson ⟨joinWithFence (c0 :: rest)⟩ = ⟨(c0 :: rest).flatten⟩) ∧
    (∀ (a w b : List Char), plainChunk a = true → w.all isJsWs = true →
        plainChunk b = true → ("json".data).isPrefixOf b = false →
        cleanMarkdownJson ⟨a ++ (w ++ (fenceChars ++ b))⟩ = ⟨a ++ b⟩) ∧
    (∀ (a w b : List Char), plainChunk a = true → w.all isJsWs = true →
        plainChunk b = true →
        cleanMarkdownJson ⟨a ++ (fenceJsonChars ++ (w ++ b))⟩ = ⟨a ++ b⟩) := by
  refine ⟨?_, ?_, ?_⟩
  · intro c0 rest h0 hall hjson
    show (⟨jsTrimChars (stripScan (joinWithFence (c0 :: rest)))⟩ : String) =
      ⟨(c0 :: rest).flatten⟩
    rw [stripScan, stripGo_join c0 rest (joinWithFence (c0 :: rest)).length h0
      hall hjson (le_refl _)]
    have hpl : plainChunk ((c0 :: rest).flatten) = true :=
      plainChunk_flatten _ (by
        intro c hc
        rcases List.mem_cons.mp hc with rfl | hc'
        · exact h0
        · exact hall c hc')
    rw [show jsTrimChars ((c0 :: rest).flatten) =
        trimRightChars (trimLeftChars ((c0 :: rest).flatten)) from rfl,
      trimLeft_plain _ hpl, trimRight_plain _ hpl]
  · intro a w b ha hw hb hjson
    show (⟨jsTrimChars (stripScan (a ++ (w ++ (fenceChars ++ b))))⟩ : String) =
      ⟨a ++ b⟩
    have hTa : a.length ≤ (a ++ (w ++ (fenceChars ++ b))).length := by
      simp [List.length_append]
    rw [stripScan, stripGo_copy a _ ha _ hTa]
    have hTsub : (a ++ (w ++ (fenceChars ++ b))).length - a.length =
        w.length + 3 + b.length := by
      simp [List.length_append, show fenceChars.length = 3 from rfl]
      omega
    rw [hTsub]
    have hmid : stripGo (w.length + 3 + b.length) (w ++ (fenceChars ++ b)) = b := by
      cases w with
      | nil =>
        rw [List.nil_append]
        exact stripGo_at_fence b hb hjson _ (by simp; omega)
      | cons c w' =>
        obtain ⟨k, hk⟩ : ∃ k, (c :: w').length + 3 + b.length = k + 1 :=
          ⟨(c :: w').length + 2 + b.length, by omega⟩
        rw [hk, stripGo_ws_fence c w' b hw k,
          stripGo_id b (plain_no_fence b hb) k (by omega)]
    rw [hmid]
    have hpl := plainChunk_append a b ha hb
    rw [show jsTrimChars (a ++ b) = trimRightChars (trimLeftChars (a ++ b)) from rfl,
      trimLeft_plain _ hpl, trimRight_plain _ hpl]
  · intro a w b ha hw hb
    show (⟨jsTrimChars (stripScan (a ++ (fenceJsonChars ++ (w ++ b))))⟩ : String) =
      ⟨a ++ b⟩
    have hTa : a.length ≤ (a ++ (fenceJsonChars ++ (w ++ b))).length := by
      simp [List.length_append]
    rw [stripScan, stripGo_copy a _ ha _ hTa]
    have hTsub : (a ++ (fenceJsonChars ++ (w ++ b))).length - a.length =
        (7 + w.length + b.length - 1) + 1 := by
      simp [List.length_append, show fenceJsonChars.length = 7 from rfl]
      omega
    rw [hTsub, stripGo_jsonfence_step w b hw (plain_wsCount b hb) _,
      stripGo_id b (plain_no_fence b hb) _ (by omega)]
    have hpl := plainChunk_append a b ha hb
    rw [show jsTrimChars (a ++ b) = trimRightChars (trimLeftChars (a ++ b)) from rfl,
      trimLeft_plain _ hpl, trimRight_plain _ hpl]

/-- Witness for claim C9 (amended): two interior fences between three plain
segments are both removed ("a```b```c" becomes "abc"), a
whitespace-preceded bare fence absorbs the run ("x ```y" becomes "xy"),
and a json-tagged fence absorbs its following whitespace ("x```json y"
becomes "xy"). -/
theorem cleanMarkdownJson_global_fence_removal_witness :
    cleanMarkdownJson ⟨joinWithFence ["a".data, "b".data, "c".data]⟩ =
      ⟨(["a".data, "b".data, "c".data] : List (List Char)).flatten⟩ ∧
    cleanMarkdownJson ⟨"x".data ++ (" ".data ++ (fenceChars ++ "y".data))⟩ =
      ⟨"x".data ++ "y".data⟩ ∧
    cleanMarkdownJson ⟨"x".data ++ (fenceJsonChars ++ (" ".data ++ "y".data))⟩ =
      ⟨"x".data ++ "y".data⟩ :=
  ⟨cleanMarkdownJson_global_fence_removal.1 "a".data ["b".data, "c".data]
     (by decide) (by decide) (by decide),
   cleanMarkdownJson_global_fence_removal.2.1 "x".data " ".data "y".data
     (by decide) (by decide) (by decide) (by decide),
   cleanMarkdownJson_global_fence_removal.2.2 "x".data " ".data "y".data
     (by decide) (by decide) (by decide)⟩

/-- The character-list form of the placeholder literal `{{n}}`. -/
def phL (n : List Char) : List Char :=
  '\x7b' :: '\x7b' :: (n ++ ['\x7d', '\x7d'])

/-- A name containing no brace characters; placeholder names (JSON-schema
argument identifiers) are of this shape, which is what makes `{{name}}` a
well-formed placeholder. -/
def braceFreeChars (t : List Char) : Bool :=
  t.all (fun c => !(c == '\x7b') && !(c == '\x7d'))

/-- String-level brace-freeness. -/
def braceFree (s : String) : Bool := braceFreeChars s.data

/-- Unpacking of `braceFree` into per-character facts. -/
lemma braceFree_forall (s : List Char) (h : braceFreeChars s = true) :
    ∀ c ∈ s, c ≠ '\x7b' ∧ c ≠ '\x7d' := by
  intro c hc
  have h2 := List.all_eq_true.mp h c hc
  simp only [Bool.and_eq_true, Bool.not_eq_true'] at h2
  exact ⟨beq_eq_false_iff_ne.mp h2.1, beq_eq_false_iff_ne.mp h2.2⟩

/-- The string-level placeholder builder agrees with `phL`. -/
lemma data_placeholderOf (n : String) : (placeholderOf n).data = phL n.data := by
  cases n with
  | mk l => rfl

/-- A prefix splits the list. -/
lemma prefix_exists_append (p t : List Char) (h : p.isPrefixOf t = true) :
    ∃ u, t = p ++ u := by
  induction p generalizing t with
  | nil => exact ⟨t, rfl⟩
  | cons x p' ih =>
    cases t with
    | nil => simp [cons_isPrefixOf_nil] at h
    | cons c t' =>
      simp only [List.isPrefixOf_cons₂, Bool.and_eq_true, beq_iff_eq] at h
      obtain ⟨u, hu⟩ := ih t' h.2
      exact ⟨u, by rw [List.cons_append, ← hu, h.1]⟩

/-- Dropping within the left part of a concatenation. -/
lemma drop_append_le (x y : List Char) (k : Nat) (h : k ≤ x.length) :
    (x ++ y).drop k = x.drop k ++ y := by
  induction x generalizing k with
  | nil =>
    have : k = 0 := by simpa using h
    subst this
    rfl
  | cons c x' ih =>
    cases k with
    | zero => rfl
    | succ k' =>
      simp only [List.cons_append, List.drop_succ_cons]
      exact ih k' (by simpa using h)

/-- Every substring occurrence has an offset. -/
lemma hasSub_exists (p t : List Char) (h : hasSub p t = true) :
    ∃ i, p.isPrefixOf (t.drop i) = true := by
  induction t with
  | nil => exact ⟨0, h⟩
  | cons c t' ih =>
    simp only [hasSub, Bool.or_eq_true] at h
    cases h with
    | inl hh => exact ⟨0, by simpa using hh⟩
    | inr hh =>
      obtain ⟨i, hi⟩ := ih hh
      exact ⟨i + 1, by simpa [List.drop_succ_cons] using hi⟩

/-- Replacement with an absent pattern is the identity. -/
lemma replF_no_occ (t p r : List Char) (h : hasSub p t = false) :
    replF t p r = t := by
  induction t with
  | nil =>
    simp only [hasSub] at h
    simp [replF, h]
  | cons c t' ih =>
    simp only [hasSub, Bool.or_eq_false_iff] at h
    simp [replF, h.1, ih h.2]

/-- A list of non-open-brace characters has no suffix starting with an open
brace within its extent. -/
lemma noOpenBraceStart (body y z : List Char) (hbody : ∀ c ∈ body, c ≠ '\x7b') :
    ∀ k, k < body.length → ('\x7b' :: z).isPrefixOf (body.drop k ++ y) = false := by
  induction body with
  | nil => intro k hk; simp at hk
  | cons c body' ih =>
    intro k hk
    cases k with
    | zero =>
      simp only [List.drop_zero, List.cons_append, List.isPrefixOf_cons₂]
      have : ('\x7b' == c) = false :=
        beq_eq_false_iff_ne.mpr (Ne.symm (hbody c (List.mem_cons_self c body')))
      simp [this]
    | succ k' =>
      simp only [List.drop_succ_cons]
      exact ih (fun d hd => hbody d (List.mem_cons_of_mem c hd)) k'
        (by simpa using hk)

/-- Two prefixes of the same list are comparable. -/
lemma prefix_total (t a b : List Char) (h1 : a.isPrefixOf t = true)
    (h2 : b.isPrefixOf t = true) :
    a.isPrefixOf b = true ∨ b.isPrefixOf a = true := by
  induction t generalizing a b with
  | nil =>
    cases a with
    | nil => exact Or.inl (nil_isPrefixOf b)
    | cons x a' => simp [cons_isPrefixOf_nil] at h1
  | cons c t' ih =>
    cases a with
    | nil => exact Or.inl (nil_isPrefixOf b)
    | cons x a' =>
      cases b with
      | nil => exact Or.inr (nil_isPrefixOf _)
      | cons y b' =>
        simp only [List.isPrefixOf_cons₂, Bool.and_eq_true, beq_iff_eq] at h1 h2
        rcases ih a' b' h1.2 h2.2 with hab | hba
        · exact Or.inl (by
            simp [List.isPrefixOf_cons₂, beq_iff_eq, h1.1.trans h2.1.symm, hab])
        · exact Or.inr (by
            simp [List.isPrefixOf_cons₂, beq_iff_eq, h2.1.trans h1.1.symm, hba])

/-- A placeholder body prefix of another placeholder body forces equal
names. -/
lemma body_prefix_eq (n m : List Char) (hn : ∀ c ∈ n, c ≠ '\x7b' ∧ c ≠ '\x7d')
    (hm : ∀ c ∈ m, c ≠ '\x7b' ∧ c ≠ '\x7d')
    (h : (n ++ ['\x7d', '\x7d']).isPrefixOf (m ++ ['\x7d', '\x7d']) = true) :
    n = m := by
  induction n generalizing m with
  | nil =>
    cases m with
    | nil => rfl
    | cons c m' =>
      simp only [List.nil_append, List.cons_append, List.isPrefixOf_cons₂,
        Bool.and_eq_true, beq_iff_eq] at h
      exact absurd h.1.symm (hm c (List.mem_cons_self c m')).2
  | cons a n' ih =>
    cases m with
    | nil =>
      simp only [List.cons_append, List.nil_append, List.isPrefixOf_cons₂,
        Bool.and_eq_true, beq_iff_eq] at h
      exact absurd h.1 (hn a (List.mem_cons_self a n')).2
    | cons c m' =>
      simp only [List.cons_append, List.isPrefixOf_cons₂, Bool.and_eq_true,
        beq_iff_eq] at h
      have heq := ih m' (fun d hd => hn d (List.mem_cons_of_mem a hd))
        (fun d hd => hm d (List.mem_cons_of_mem c hd)) h.2
      rw [h.1, heq]

/-- A placeholder prefix of another placeholder forces equal names. -/
lemma ph_prefix_eq (n m : List Char) (hn : ∀ c ∈ n, c ≠ '\x7b' ∧ c ≠ '\x7d')
    (hm : ∀ c ∈ m, c ≠ '\x7b' ∧ c ≠ '\x7d')
    (h : (phL n).isPrefixOf (phL m) = true) : n = m := by
  simp only [phL, List.isPrefixOf_cons₂, Bool.and_eq_true, beq_iff_eq] at h
  exact body_prefix_eq n m hn hm h.2.2

/-- Two placeholders starting at the same position have equal names. -/
lemma ph_prefix_same (n m t : List Char) (hn : ∀ c ∈ n, c ≠ '\x7b' ∧ c ≠ '\x7d')
    (hm : ∀ c ∈ m, c ≠ '\x7b' ∧ c ≠ '\x7d')
    (h1 : (phL n).isPrefixOf t = true) (h2 : (phL m).isPrefixOf t = true) :
    n = m := by
  rcases prefix_total t (phL n) (phL m) h1 h2 with hc | hc
  · exact ph_prefix_eq n m hn hm hc
  · exact (ph_prefix_eq m n hm hn hc).symm

/-- Non-overlap of placeholder occurrences: inside the span of one
placeholder occurrence, another placeholder can only start at the very same
position or after the whole span. -/
lemma ph_no_overlap (n m t : List Char)
    (hn : ∀ c ∈ n, c ≠ '\x7b' ∧ c ≠ '\x7d') (i : Nat)
    (h1 : (phL n).isPrefixOf t = true)
    (h2 : (phL m).isPrefixOf (t.drop i) = true) :
    i = 0 ∨ (phL n).length ≤ i := by
  rcases Nat.eq_zero_or_pos i with hi0 | hipos
  · exact Or.inl hi0
  rcases Nat.lt_or_ge i (phL n).length with hilt | hige
  · exfalso
    obtain ⟨rest, hrest⟩ := prefix_exists_append _ _ h1
    subst hrest
    have hbodyNe : ∀ c ∈ n ++ ['\x7d', '\x7d'], c ≠ '\x7b' := by
      intro c hc
      rcases List.mem_append.mp hc with hcn | hcd
      · exact (hn c hcn).1
      · have : c = '\x7d' := by simpa using hcd
        subst this
        decide
    have hteq : phL n ++ rest = '\x7b' :: '\x7b' :: ((n ++ ['\x7d', '\x7d']) ++ rest) := by
      simp [phL]
    rw [hteq] at h2
    have hlen : (phL n).length = (n ++ ['\x7d', '\x7d']).length + 2 := by
      simp [phL]
    rcases Nat.lt_or_ge i 2 with hi1 | hi2
    · have : i = 1 := by omega
      subst this
      simp only [List.drop_succ_cons, List.drop_zero] at h2
      rw [show phL m = '\x7b' :: ('\x7b' :: (m ++ ['\x7d', '\x7d'])) from rfl,
        List.isPrefixOf_cons₂] at h2
      simp only [Bool.and_eq_true] at h2
      have hlen2 : 0 < (n ++ ['\x7d', '\x7d']).length := by
        simp [List.length_append]
      have := noOpenBraceStart (n ++ ['\x7d', '\x7d']) rest (m ++ ['\x7d', '\x7d'])
        hbodyNe 0 hlen2
      rw [List.drop_zero] at this
      rw [this] at h2
      exact absurd h2.2 (by simp)
    · obtain ⟨i'', rfl⟩ : ∃ i'', i = i'' + 2 := ⟨i - 2, by omega⟩
      simp only [List.drop_succ_cons] at h2
      have hkle : i'' < (n ++ ['\x7d', '\x7d']).length := by omega
      rw [drop_append_le _ _ _ (le_of_lt hkle)] at h2
      rw [show phL m = '\x7b' :: ('\x7b' :: (m ++ ['\x7d', '\x7d'])) from rfl] at h2
      rw [noOpenBraceStart (n ++ ['\x7d', '\x7d']) rest ('\x7b' :: (m ++ ['\x7d', '\x7d']))
        hbodyNe i'' hkle] at h2
      exact absurd h2 (by simp)
  · exact Or.inr hige

/-- A prefix whose span precedes every pattern occurrence survives the
replacement. -/
lemma prefix_survives_replF (p r : List Char) :
    ∀ (s t : List Char), s.isPrefixOf t = true →
      (∀ q, p.isPrefixOf (t.drop q) = true → s.length ≤ q) →
      s.isPrefixOf (replF t p r) = true := by
  intro s
  induction s with
  | nil => intro t _ _; exact nil_isPrefixOf _
  | cons d s' ih =>
    intro t h hq
    cases t with
    | nil => simp [cons_isPrefixOf_nil] at h
    | cons c t' =>
      simp only [List.isPrefixOf_cons₂, Bool.and_eq_true, beq_iff_eq] at h
      have hp : p.isPrefixOf (c :: t') = false := by
        cases hpp : p.isPrefixOf (c :: t') with
        | false => rfl
        | true =>
          have := hq 0 (by simpa using hpp)
          simp at this
      have hrec := ih t' h.2 (fun q hqq => by
        have := hq (q + 1) (by simpa [List.drop_succ_cons] using hqq)
        exact Nat.succ_le_succ_iff.mp this)
      simp [replF, hp, List.isPrefixOf_cons₂, beq_iff_eq, h.1, hrec]

/-- Replacing the first occurrence of one brace-free placeholder preserves
every occurrence of a differently-named brace-free placeholder. -/
lemma replF_keeps_ph (n m : List Char)
    (hn : ∀ c ∈ n, c ≠ '\x7b' ∧ c ≠ '\x7d')
    (hm : ∀ c ∈ m, c ≠ '\x7b' ∧ c ≠ '\x7d')
    (hnm : n ≠ m) (r : List Char) :
    ∀ (t : List Char) (i : Nat), (phL m).isPrefixOf (t.drop i) = true →
      ∃ j, (phL m).isPrefixOf ((replF t (phL n) r).drop j) = true := by
  intro t
  induction t with
  | nil =>
    intro i h
    rw [List.drop_nil] at h
    simp [show phL m = '\x7b' :: ('\x7b' :: (m ++ ['\x7d', '\x7d'])) from rfl,
      cons_isPrefixOf_nil] at h
  | cons c t' ih =>
    intro i h
    by_cases hp : (phL n).isPrefixOf (c :: t') = true
    · rcases ph_no_overlap n m (c :: t') hn i hp h with hi0 | hile
      · subst hi0
        rw [List.drop_zero] at h
        exact absurd (ph_prefix_same n m (c :: t') hn hm hp h) hnm
      · have hdd : (phL m).isPrefixOf
            ((((c :: t').drop (phL n).length)).drop (i - (phL n).length)) = true := by
          rw [List.drop_drop,
            show (phL n).length + (i - (phL n).length) = i from by omega]
          exact h
        refine ⟨r.length + (i - (phL n).length), ?_⟩
        rw [show replF (c :: t') (phL n) r = r ++ (c :: t').drop (phL n).length from by
          simp [replF, hp]]
        rw [List.drop_append]
        exact hdd
    · cases i with
      | succ i' =>
        rw [List.drop_succ_cons] at h
        obtain ⟨j, hj⟩ := ih i' h
        refine ⟨j + 1, ?_⟩
        rw [show replF (c :: t') (phL n) r = c :: replF t' (phL n) r from by
          simp [replF, hp]]
        rw [List.drop_succ_cons]
        exact hj
      | zero =>
        rw [List.drop_zero] at h
        refine ⟨0, ?_⟩
        rw [List.drop_zero]
        refine prefix_survives_replF (phL n) r (phL m) (c :: t') h ?_
        intro q hqq
        rcases ph_no_overlap m n (c :: t') hm q h hqq with hq0 | hqle
        · subst hq0
          rw [List.drop_zero] at hqq
          exact absurd hqq hp
        · exact hqle

/-- One substitution step preserves every occurrence of a differently-named
brace-free placeholder. -/
lemma applyArgOnce_keeps (m : String) (content : String) (kv : String × Json)
    (hm : braceFree m = true) (hk : braceFree kv.1 = true) (hne : kv.1 ≠ m)
    (h : hasSub (phL m.data) content.data = true) :
    hasSub (phL m.data) (applyArgOnce content kv).data = true := by
  obtain ⟨i, hi⟩ := hasSub_exists _ _ h
  have hdata : (applyArgOnce content kv).data =
      replF content.data (phL kv.1.data) (argValueText kv.2).data := by
    show (replaceFirst content (placeholderOf kv.1) (argValueText kv.2)).data = _
    rw [show (replaceFirst content (placeholderOf kv.1) (argValueText kv.2)).data =
        replF content.data (placeholderOf kv.1).data (argValueText kv.2).data from rfl,
      data_placeholderOf]
  obtain ⟨j, hj⟩ := replF_keeps_ph kv.1.data m.data
    (braceFree_forall kv.1.data hk) (braceFree_forall m.data hm)
    (fun hd => hne (String.ext hd)) (argValueText kv.2).data content.data i hi
  rw [hdata]
  exact hasSub_of_prefix_drop _ _ j hj

/-- Folding all substitutions preserves every occurrence of a placeholder
whose name is brace-free and not among the argument names. -/
lemma fillContent_keeps (m : String) (hm : braceFree m = true)
    (args : List (String × Json)) (hargs : ∀ p ∈ args, braceFree p.1 = true)
    (hmem : m ∉ args.map Prod.fst) :
    ∀ content : String, hasSub (phL m.data) content.data = true →
      hasSub (phL m.data) (fillContent content args).data = true := by
  induction args with
  | nil => intro content h; exact h
  | cons a as ih =>
    intro content h
    have hne : a.1 ≠ m := by
      intro hh
      exact hmem (by rw [List.map_cons, hh]; exact List.mem_cons_self m _)
    have hstep := applyArgOnce_keeps m content a hm
      (hargs a (List.mem_cons_self a as)) hne h
    have htail := ih (fun p hp => hargs p (List.mem_cons_of_mem a hp))
      (fun hh => hmem (by rw [List.map_cons]; exact List.mem_cons_of_mem _ hh))
      (applyArgOnce content a) hstep
    exact htail

/-- Claim C6: template filling — the two concrete examples of the
specification (`{{query}}` with an empty extracted value becomes "N/A", with
"SELECT 1" it becomes the value); an argument whose placeholder does not
occur in the message leaves the text unchanged (its substitution step is the
identity); and a placeholder whose (brace-free) name is not a key of the
(brace-free-named) argument map still occurs verbatim in the filled
output. -/
theorem template_filling_properties :
    fillContent "Run \x7b\x7bquery\x7d\x7d now" [("query", Json.str "")] = "Run N/A now" ∧
    fillContent "Run \x7b\x7bquery\x7d\x7d now" [("query", Json.str "SELECT 1")] =
      "Run SELECT 1 now" ∧
    (∀ (content : String) (kv : String × Json),
        hasSub (placeholderOf kv.1).data content.data = false →
        applyArgOnce content kv = content) ∧
    (∀ (content : String) (args : List (String × Json)) (m : String),
        braceFree m = true → (∀ p ∈ args, braceFree p.1 = true) →
        m ∉ args.map Prod.fst →
        hasSub (placeholderOf m).data content.data = true →
        hasSub (placeholderOf m).data (fillContent content args).data = true) := by
  refine ⟨by decide, by decide, ?_, ?_⟩
  · intro content kv h
    show replaceFirst content (placeholderOf kv.1) (argValueText kv.2) = content
    apply String.ext
    show replF content.data (placeholderOf kv.1).data (argValueText kv.2).data =
      content.data
    exact replF_no_occ _ _ _ h
  · intro content args m hm hargs hmem h
    rw [data_placeholderOf] at h ⊢
    exact fillContent_keeps m hm args hargs hmem content h

/-- Witness for claim C6: the argument "query" has no placeholder in "hello",
so its step is the identity; and the placeholder `{{other}}`, whose name is
not an argument key, still occurs in the filled text. -/
theorem template_filling_properties_witness :
    applyArgOnce "hello" ("query", Json.str "x") = "hello" ∧
    hasSub (placeholderOf "other").data
      (fillContent "run \x7b\x7bother\x7d\x7d end" [("query", Json.str "v")]).data = true :=
  ⟨template_filling_properties.2.2.1 "hello" ("query", Json.str "x") (by decide),
   template_filling_properties.2.2.2 "run \x7b\x7bother\x7d\x7d end"
     [("query", Json.str "v")] "other" (by decide) (by decide) (by decide) (by decide)⟩
